import Mathlib

/-!
Verification development for the Certen pending-actions discovery service.

Strings are modelled as `List Char`; JavaScript's `trim`, `toLowerCase`,
`startsWith`, `substring`, `indexOf` and `slice` are given explicit list
embeddings, and each service function is translated from its TypeScript
source.  String-level wrappers keep the source names.
-/

namespace CertenPending

/-- Whitespace characters removed by JavaScript's String.prototype.trim
(restricted to the ASCII whitespace class, which is all the service's
inputs use). -/
def jsWhitespaceChar (c : Char) : Bool :=
  c = ' ' || c = '\t' || c = '\n' || c = '\r' || c = '\x0b' || c = '\x0c'

/-- Remove leading whitespace. -/
def trimLeft (s : List Char) : List Char :=
  s.dropWhile jsWhitespaceChar

/-- Remove trailing whitespace. -/
def trimRight (s : List Char) : List Char :=
  (s.reverse.dropWhile jsWhitespaceChar).reverse

/-- JavaScript `s.trim()`. -/
def jsTrim (s : List Char) : List Char :=
  trimRight (trimLeft s)

/-- JavaScript `s.toLowerCase()` (ASCII case mapping). -/
def lowerChars (s : List Char) : List Char :=
  s.map Char.toLower

/-- JavaScript `s.startsWith(p)` as a Bool on char lists. -/
def isPre (p s : List Char) : Bool :=
  List.isPrefixOf p s

/-- JavaScript `s.indexOf(c)` (`none` plays the role of `-1`). -/
def idxOf? (c : Char) (s : List Char) : Option Nat :=
  s.findIdx? (fun a => a = c)

/-- The char list of `"0x"`. -/
def pre0x : List Char := ['0', 'x']

/-- The char list of `"acc://"`. -/
def preAcc : List Char := ['a', 'c', 'c', ':', '/', '/']

/-- The char list of `"acc:"`. -/
def preAccShort : List Char := ['a', 'c', 'c', ':']

/-- The truncation step the source performs twice in `normalizeHash`:
`const i = s.indexOf(c); if (i > 0) s = s.substring(0, i);`. -/
def truncAtPos (c : Char) (s : List Char) : List Char :=
  match idxOf? c s with
  | some i => if 0 < i then s.take i else s
  | none => s

/-- The `0x`-stripping step of `normalizeHash`:
`if (s.startsWith('0x')) s = s.substring(2)`. -/
def strip0x (s : List Char) : List Char :=
  if isPre pre0x s then s.drop 2 else s

/-- The `acc://`-stripping step of `normalizeHash`:
`if (s.startsWith('acc://')) s = s.substring(6)`. -/
def stripAcc (s : List Char) : List Char :=
  if isPre preAcc s then s.drop 6 else s

/-- Embedding of `normalizeHash` from `utils/hash-normalizer.ts`:
trim+lowercase, strip a leading `0x`, strip a leading `acc://`,
truncate at `'@'` then at `'/'` (each only when found at a positive
index), and a final trim.  Empty input yields empty output. -/
def normHash (s : List Char) : List Char :=
  if s = [] then []
  else jsTrim (truncAtPos '/' (truncAtPos '@'
    (stripAcc (strip0x (lowerChars (jsTrim s))))))

/-- The prefix-fixing step of `normalizeUrl`: ensure a leading `acc://`,
completing a bare `acc:` by re-inserting the slashes. -/
def accFix (s : List Char) : List Char :=
  if isPre preAcc s then s
  else if isPre preAccShort s then preAcc ++ s.drop 4
  else preAcc ++ s

/-- Embedding of `normalizeUrl` from `utils/url-normalizer.ts`:
lowercase+trim, ensure a leading `acc://` (completing a bare `acc:`),
and drop one trailing `'/'`. -/
def normUrl (s : List Char) : List Char :=
  if s = [] then []
  else
    let n2 := accFix (jsTrim (lowerChars s))
    if n2.getLast? = some '/' then n2.dropLast else n2

/-- String-level `normalizeHash`, matching the TypeScript export. -/
def normalizeHash (s : String) : String :=
  ⟨normHash s.data⟩

/-- String-level `normalizeUrl`, matching the TypeScript export. -/
def normalizeUrl (s : String) : String :=
  ⟨normUrl s.data⟩

/-- Reference definition of hash normalization, written from the spec's
words: "Trim, lowercase, strip leading 0x, strip leading acc://, then
truncate at the first `@` or `/` encountered.  Empty input yields empty
output."  Truncating at the first separator keeps exactly the characters
before it, i.e. `takeWhile (not a separator)`. -/
def normHashSpec (s : List Char) : List Char :=
  (stripAcc (strip0x (lowerChars (jsTrim s)))).takeWhile
    (fun a => !(a = '@' || a = '/'))

/-- String-level wrapper of the spec's reference hash normalization. -/
def normalizeHashSpec (s : String) : String :=
  ⟨normHashSpec s.data⟩

/-- Truncation at the first occurrence of `c`, applied only when that
occurrence lies after the first character (the reference formulation the
source's positive-index guard actually implements). -/
def truncAtSepA (c : Char) (s : List Char) : List Char :=
  if s.head? = some c then s else s.takeWhile (fun a => !(a = c))

/-- Amended reference definition of hash normalization: trim+lowercase,
strip a leading `0x`, strip a leading `acc://`, truncate at the first
`'@'` unless it is the very first character, then likewise at the first
`'/'`, then trim again. -/
def normHashAmended (s : List Char) : List Char :=
  if s = [] then []
  else jsTrim (truncAtSepA '/' (truncAtSepA '@'
    (stripAcc (strip0x (lowerChars (jsTrim s))))))

/-- String-level wrapper of the amended reference hash normalization. -/
def normalizeHashAmended (s : String) : String :=
  ⟨normHashAmended s.data⟩

/-- All characters of the list are fixed by lowercasing. -/
def LFix (s : List Char) : Prop := ∀ a ∈ s, a.toLower = a

/-- The first occurrence of `c` in `s` is not at a positive index:
either `c` is absent or it is the first character.  Both the `'@'` and
`'/'` truncation guards of `normalizeHash` are no-ops exactly here. -/
def NotPos (c : Char) (s : List Char) : Prop := c ∉ s ∨ s.head? = some c

/-- State of the `Semaphore` from `utils/retry.ts`: the `permits`
counter (kept as an integer so that non-negativity is a theorem, not a
typing artifact) and the length of the `waiting` FIFO. -/
structure Semaphore where
  permits : Int
  waiting : Nat
deriving DecidableEq, Repr

/-- `new Semaphore(n)`. -/
def Semaphore.make (n : Nat) : Semaphore :=
  { permits := (n : Int), waiting := 0 }

/-- `acquire()`: take a permit when one is available, otherwise park the
caller in the waiting queue. -/
def Semaphore.acquire (s : Semaphore) : Semaphore :=
  if s.permits > 0 then { s with permits := s.permits - 1 }
  else { s with waiting := s.waiting + 1 }

/-- `release()`: increment `permits`; if a waiter exists and a permit is
now free, consume the permit and wake exactly one waiter.  The second
component counts how many waiters this call woke. -/
def Semaphore.releaseWoken (s : Semaphore) : Semaphore × Nat :=
  let p := s.permits + 1
  if s.waiting > 0 ∧ p > 0 then
    ({ permits := p - 1, waiting := s.waiting - 1 }, 1)
  else
    ({ s with permits := p }, 0)

/-- An operation completed against the semaphore. -/
inductive SemOp
  | acq
  | rel
deriving DecidableEq, Repr

/-- One completed operation. -/
def Semaphore.step (s : Semaphore) : SemOp → Semaphore
  | .acq => s.acquire
  | .rel => s.releaseWoken.1

/-- A finite sequence of completed operations. -/
def Semaphore.run (s : Semaphore) (ops : List SemOp) : Semaphore :=
  ops.foldl Semaphore.step s

/-- The semaphore state invariant: the permit counter is never negative,
and no caller stays parked while a permit is free. -/
def SemInv (s : Semaphore) : Prop :=
  0 ≤ s.permits ∧ (s.waiting ≠ 0 → s.permits = 0)

/-- Gating state of `PendingActionsPoller`: the `isRunning` flag (set by
`start()`, cleared by `shutdown()`, and read at the top of `tick()` as
`if (!this.isRunning) return;`) together with the number of `tick()`
invocations currently in flight. -/
structure PollerState where
  isRunning : Bool
  activeTicks : Nat
deriving DecidableEq, Repr

/-- Events relevant to cycle gating: the interval timer invoking
`tick()`, a running tick finishing, and the shutdown handler. -/
inductive PollerEvent
  | timerFire
  | tickComplete
  | shutdownSignal
deriving DecidableEq, Repr

/-- Transition translated from `PendingActionsPoller`: a timer fire runs
`tick()`, whose only guard is the `isRunning` check, so whenever
`isRunning` is true a new cycle starts regardless of cycles already in
flight; `shutdown()` clears the flag. -/
def pollerStep (s : PollerState) : PollerEvent → PollerState
  | .timerFire =>
      if s.isRunning then { s with activeTicks := s.activeTicks + 1 } else s
  | .tickComplete => { s with activeTicks := s.activeTicks - 1 }
  | .shutdownSignal => { s with isRunning := false }

/-- State after `start()`: the flag is set and the initial cycle has not
yet been counted. -/
def pollerStart : PollerState :=
  { isRunning := true, activeTicks := 0 }

/-- A sequence of gating events. -/
def pollerRun (s : PollerState) (es : List PollerEvent) : PollerState :=
  es.foldl pollerStep s

/-- A JSON value, modelling the dynamically-typed ledger RPC responses
the client probes. -/
inductive JVal
  | jnull
  | jbool (b : Bool)
  | jnum (n : Int)
  | jstr (s : String)
  | jarr (elems : List JVal)
  | jobj (fields : List (String × JVal))

/-- JavaScript property access `v[k]` on an object (`undefined`, i.e.
`none`, on missing keys and on non-objects). -/
def jfield? (v : JVal) (k : String) : Option JVal :=
  match v with
  | .jobj fields => fields.lookup k
  | _ => none

/-- Optional-chained property access `v?.k`. -/
def jfieldO (v : Option JVal) (k : String) : Option JVal :=
  match v with
  | some x => jfield? x k
  | none => none

/-- JavaScript strict equality of a (possibly absent) value against a
string literal, as in `account?.type === 'keyBook'`. -/
def isStr (v : Option JVal) (s : String) : Bool :=
  match v with
  | some (.jstr t) => t = s
  | _ => false

/-- One probe of `queryKeyBookPageCount`: from a candidate sub-object,
return its `pageCount` when its `type` field is the string `keyBook` and
`pageCount` is numeric (`account?.type === 'keyBook' &&
typeof account.pageCount === 'number'`); `none` means fall through. -/
def keyBookCountOf (v : Option JVal) : Option Int :=
  match v with
  | some a =>
      if isStr (jfield? a "type") "keyBook" then
        match jfield? a "pageCount" with
        | some (.jnum n) => some n
        | _ => none
      else none
  | none => none

/-- The top-level fallback probe of `queryKeyBookPageCount`:
`typeof response.pageCount === 'number'`, with no type check at all. -/
def topPageCount (r : JVal) : Option Int :=
  match jfield? r "pageCount" with
  | some (.jnum n) => some n
  | _ => none

/-- Embedding of `AccumulateClient.queryKeyBookPageCount`: probe
`response.account`, then `response.data` (each requiring
`type == 'keyBook'` with a numeric `pageCount`), then a bare top-level
`pageCount`; any RPC failure (`none` response) is caught and yields 0. -/
def queryKeyBookPageCount (resp : Option JVal) : Int :=
  match resp with
  | none => 0
  | some r =>
      match keyBookCountOf (jfield? r "account") with
      | some n => n
      | none =>
          match keyBookCountOf (jfield? r "data") with
          | some n => n
          | none =>
              match topPageCount r with
              | some n => n
              | none => 0

/-- Concrete response for the C8 counterexample: a bare top-level
`pageCount` with no `keyBook` type anywhere. -/
def respC8 : JVal := JVal.jobj [("pageCount", JVal.jnum 5)]

/-- A discovered signing path (`SigningPath` of the source, minus its
wall-clock `discoveredAt` stamp, which no computation reads). -/
structure SPath where
  path : String
  hops : List String
  finalSigner : String
deriving DecidableEq, Repr

/-- The separator of the human path rendering. -/
def arrowSep : String := " -> "

/-- `hops.join(' -> ')`. -/
def renderPath (hops : List String) : String :=
  String.intercalate arrowSep hops

/-- A raw key-page entry as `queryKeyPage` returns it
(`AccumulateKeyEntry`). -/
structure AccKeyEntry where
  publicKeyHash : String
  delegate : Option String
deriving DecidableEq, Repr

/-- A stored key-page entry (`CertenKeyEntry`): its `type` tag is the
string `key` or `delegate` as in the Firestore document. -/
structure CKeyEntry where
  type : String
  publicKeyHash : Option String
  delegateUrl : Option String
deriving DecidableEq, Repr

/-- A stored key page (`CertenKeyPage`; credit/version metadata that no
algorithm reads is omitted). -/
structure CKeyPage where
  url : String
  entries : List CKeyEntry
deriving DecidableEq, Repr

/-- A stored key book (`CertenKeyBook`). -/
structure CKeyBook where
  url : String
  keyPages : List CKeyPage
deriving DecidableEq, Repr

/-- A stored account stub under an ADI. -/
structure CAccount where
  url : String
deriving DecidableEq, Repr

/-- A stored identity (`CertenAdi`). -/
structure CertenAdi where
  adiUrl : String
  keyBooks : List CKeyBook
  accounts : List CAccount
deriving DecidableEq, Repr

/-- A parsed signature on a pending transaction (the fields of
`AccumulateSignature` the discovery predicates and the reconciler
read; timestamps are epoch milliseconds). -/
structure SigRec where
  signer : String
  publicKeyHash : String
  vote : Option String
  timestamp : Option Nat
deriving DecidableEq, Repr

/-- A parsed pending transaction (the fields of `AccumulatePendingTx`
the discovery and reconcile steps read; `type`, `status` and the body
blob are carried opaquely by the source and omitted here; `expiresAt`
is epoch milliseconds). -/
structure PendingTx where
  txId : String
  hash : String
  principal : String
  signatures : List SigRec
  expiresAt : Option Nat
deriving DecidableEq, Repr

/-- The ledger as seen through `AccumulateClient`'s typed methods.  Each
field is one client method; the client catches every RPC failure inside
the method and returns the neutral value, so total functions model them
faithfully (`queryDirectory` → `[]`, `queryKeyBookPageCount` → `0`,
`queryKeyPage` → `null`, `accountExists` → `false`, `queryPending` →
`[]`, `querySignatureChain` → `{records: [], total: 0}`,
`queryTransaction(Raw)` → `null`). -/
structure Ledger where
  directoryOf : String → List String
  pageCountOf : String → Nat
  keyPageOf : String → Option (List AccKeyEntry)
  accountExistsOf : String → Bool
  pendingOf : String → List PendingTx
  sigChainTotalOf : String → Nat
  sigChainRecordsOf : String → Nat → Nat → List JVal
  txRawOf : String → Option JVal
  txOf : String → Option PendingTx

/-- The delegate URLs of a live key page as the DFS extracts them:
`keys.filter(k => k.delegate).map(k => normalizeUrl(k.delegate))`. -/
def delegatesOf (keys : List AccKeyEntry) : List String :=
  (keys.filter (fun k => !(k.delegate.getD "").isEmpty)).map
    (fun k => normalizeUrl (k.delegate.getD ""))

/-- Embedding of `SigningPathService.followDelegationChain`: return at a
visited target or past `maxDepth`; otherwise mark visited, drop silently
when the account does not exist, record the extended chain as a
`SigningPath`, and recurse into every delegate of the live key page
(`queryKeyPage` failures are caught and stop the descent).  Returns the
updated `visited` set (as an insertion-ordered list) and `results`. -/
def followDelegationChain (L : Ledger) (maxDepth : Nat)
    (targetUrl : String) (currentPath : List String)
    (visited : List String) (results : List SPath) (depth : Nat) :
    List String × List SPath :=
  let nt := normalizeUrl targetUrl
  if h : visited.contains nt ∨ depth > maxDepth then
    (visited, results)
  else
    let visited1 := visited ++ [nt]
    if L.accountExistsOf nt then
      let newPath := currentPath ++ [nt]
      match L.keyPageOf nt with
      | none => (visited1, results ++ [⟨renderPath newPath, newPath, nt⟩])
      | some keys =>
          (delegatesOf keys).foldl
            (fun st d =>
              followDelegationChain L maxDepth d newPath st.1 st.2 (depth + 1))
            (visited1, results ++ [⟨renderPath newPath, newPath, nt⟩])
    else (visited1, results)
termination_by maxDepth + 1 - depth
decreasing_by
  simp only [not_or] at h
  omega

/-- Insertion-ordered set insert (`Set.add` of JavaScript). -/
def insertUniq (l : List String) (x : String) : List String :=
  if l.contains x then l else l ++ [x]

/-- `SigningPathService.extractDelegates`: the normalized delegate URLs
of a stored key page (entries tagged `delegate` with a truthy URL). -/
def extractDelegates (kp : CKeyPage) : List String :=
  (kp.entries.filter
      (fun e => e.type == "delegate" && !(e.delegateUrl.getD "").isEmpty)).map
    (fun e => normalizeUrl (e.delegateUrl.getD ""))

/-- Accumulator of the explorer: pages already registered as direct
paths, the DFS `visited` set, and the paths produced so far. -/
structure ExploreSt where
  processed : List String
  visited : List String
  paths : List SPath
deriving Repr

/-- The type of a DFS launch from a direct page: target URL, initial
path, shared `visited`, accumulated `results` (depth is always 1 at a
launch site, so it is pre-applied). -/
def FollowFn : Type :=
  String → List String → List String → List SPath →
    List String × List SPath

/-- First loop of `discoverSigningPaths`, abstracted over the DFS
launcher: every stored key page becomes a direct single-hop path
(once), and a DFS is launched from each of its delegate entries,
sharing `visited` across launches. -/
def storedPagesLoop (fol : FollowFn) (adi : CertenAdi) : ExploreSt :=
  adi.keyBooks.foldl
    (fun st kb =>
      kb.keyPages.foldl
        (fun st kp =>
          let pageUrl := normalizeUrl kp.url
          if st.processed.contains pageUrl then st
          else
            let paths1 := st.paths ++ [⟨pageUrl, [pageUrl], pageUrl⟩]
            let vp := (extractDelegates kp).foldl
              (fun vr d => fol d [pageUrl] vr.1 vr.2)
              (st.visited, paths1)
            ⟨st.processed ++ [pageUrl], vp.1, vp.2⟩)
        st)
    ⟨[], [], []⟩

/-- Second loop of `discoverSigningPaths`, abstracted over the DFS
launcher: each seeded key-book URL is asked for its live page count (0
means "not a key book" — skip); every live page `book/i` not already
processed becomes a direct path, with a DFS from each delegate of the
live page.  The Firestore snapshot the source also assembles
(`discoveredKeyBooks`) feeds no path and is not modelled. -/
def liveBooksLoop (L : Ledger) (fol : FollowFn) (keyBookUrls : List String)
    (st0 : ExploreSt) : ExploreSt :=
  keyBookUrls.foldl
    (fun st bookUrl =>
      let pageCount := L.pageCountOf bookUrl
      if pageCount = 0 then st
      else
        (List.range' 1 pageCount).foldl
          (fun st i =>
            let pageUrl := normalizeUrl (bookUrl ++ "/" ++ toString i)
            let keyPageData := L.keyPageOf pageUrl
            if st.processed.contains pageUrl then st
            else
              let paths1 := st.paths ++ [⟨pageUrl, [pageUrl], pageUrl⟩]
              match keyPageData with
              | some keys =>
                  let vp := (delegatesOf keys).foldl
                    (fun vr d => fol d [pageUrl] vr.1 vr.2)
                    (st.visited, paths1)
                  ⟨st.processed ++ [pageUrl], vp.1, vp.2⟩
              | none => ⟨st.processed ++ [pageUrl], st.visited, paths1⟩)
          st)
    st0

/-- Embedding of `SigningPathService.discoverSigningPaths`: seed the
key-book URL set from the stored books and the identity's directory
entries, register stored key pages as direct paths with delegate DFS
launches (each launch entering `followDelegationChain` at depth 1),
then enumerate live pages of every seeded book. -/
def discoverSigningPaths (L : Ledger) (maxD : Nat) (adi : CertenAdi) :
    List SPath :=
  let fol : FollowFn := fun t cp v r =>
    followDelegationChain L maxD t cp v r 1
  let keyBookUrls :=
    ((adi.keyBooks.map (fun kb => normalizeUrl kb.url)) ++
        (L.directoryOf adi.adiUrl).map normalizeUrl).foldl insertUniq []
  (liveBooksLoop L fol keyBookUrls (storedPagesLoop fol adi)).paths

/-- Key page A of the delegation-cycle scenario (spec scenario S4). -/
def cexPageA : String := "acc://a.acme/book/1"

/-- Key page B of the delegation-cycle scenario. -/
def cexPageB : String := "acc://b.acme/book/1"

/-- Ledger with a delegation back-edge: page A delegates to B and B
delegates back to A; both accounts exist; no directory entries and no
live key books. -/
def cexLedger : Ledger where
  directoryOf := fun _ => []
  pageCountOf := fun _ => 0
  keyPageOf := fun u =>
    if u = cexPageA then some [⟨"", some cexPageB⟩]
    else if u = cexPageB then some [⟨"", some cexPageA⟩]
    else none
  accountExistsOf := fun u => u = cexPageA || u = cexPageB
  pendingOf := fun _ => []
  sigChainTotalOf := fun _ => 0
  sigChainRecordsOf := fun _ _ _ => []
  txRawOf := fun _ => none
  txOf := fun _ => none

/-- Stored identity owning page A, whose stored entry delegates to B. -/
def cexAdi : CertenAdi where
  adiUrl := "acc://a.acme"
  keyBooks := [⟨"acc://a.acme/book", [⟨cexPageA, [⟨"delegate", none, some cexPageB⟩]⟩]⟩]
  accounts := []

/-- Fuel-indexed executable twin of `followDelegationChain` (the
well-founded original does not reduce inside the kernel; this
structurally recursive copy does, and agrees with it whenever the fuel
covers the remaining depth budget). -/
def followFuel (L : Ledger) (maxDepth : Nat) (fuel : Nat)
    (targetUrl : String) (currentPath : List String)
    (visited : List String) (results : List SPath) (depth : Nat) :
    List String × List SPath :=
  match fuel with
  | 0 => (visited, results)
  | fuel + 1 =>
      let nt := normalizeUrl targetUrl
      if visited.contains nt ∨ depth > maxDepth then
        (visited, results)
      else
        let visited1 := visited ++ [nt]
        if L.accountExistsOf nt then
          let newPath := currentPath ++ [nt]
          match L.keyPageOf nt with
          | none => (visited1, results ++ [⟨renderPath newPath, newPath, nt⟩])
          | some keys =>
              (delegatesOf keys).foldl
                (fun st d =>
                  followFuel L maxDepth fuel d newPath st.1 st.2 (depth + 1))
                (visited1, results ++ [⟨renderPath newPath, newPath, nt⟩])
        else (visited1, results)

/-- Executable variant of `discoverSigningPaths` using the fuel twin of
the DFS; equal to the original by `followFuel_eq`. -/
def discoverSigningPathsF (L : Ledger) (maxD : Nat) (adi : CertenAdi) :
    List SPath :=
  let fol : FollowFn := fun t cp v r =>
    followFuel L maxD (maxD + 1) t cp v r 1
  let keyBookUrls :=
    ((adi.keyBooks.map (fun kb => normalizeUrl kb.url)) ++
        (L.directoryOf adi.adiUrl).map normalizeUrl).foldl insertUniq []
  (liveBooksLoop L fol keyBookUrls (storedPagesLoop fol adi)).paths

/-- The shape every path the explorer emits satisfies: bounded length,
non-empty, and no duplicates among the hops after the first (the first
hop itself may be revisited once, since the source never enters the
launch page into `visited`). -/
def goodPath (maxD : Nat) (p : SPath) : Prop :=
  p.hops.length ≤ maxD + 1 ∧ p.hops ≠ [] ∧ p.hops.tail.Nodup

/-- The pair state threaded through a delegate fold. -/
abbrev FSt : Type := List String × List SPath

/-- Category of an eligible transaction. -/
inductive Category
  | initiated_by_user
  | requiring_signature
deriving DecidableEq, Repr

/-- An eligible transaction as the discovery engine accumulates it. -/
structure EligibleTx where
  tx : PendingTx
  eligiblePaths : List String
  category : Category
deriving DecidableEq, Repr

/-- The `eligibleTxs` map — a JavaScript `Map` is an insertion-ordered
association list with unique keys. -/
abbrev EligMap : Type := List (String × EligibleTx)

/-- The `allSignatures` cache, hash → observed signatures. -/
abbrev SigMap : Type := List (String × List SigRec)

/-- In-place update of the entry stored at a key of an
insertion-ordered association map. -/
def replaceEntry {β : Type} (m : List (String × β)) (hash : String)
    (e : β) : List (String × β) :=
  m.map (fun kv => if kv.1 = hash then (hash, e) else kv)

/-- Embedding of `PendingDiscoveryService.addEligibleTx`: first
insertion keyed by the normalized hash; a duplicate merges by pushing an
unseen path rendering and promoting the category to `initiated_by_user`
when the new contributor reports it. -/
def addEligibleTx (m : EligMap) (tx : PendingTx) (signingPath : String)
    (category : Category) : EligMap :=
  let hash := normalizeHash tx.hash
  match m.lookup hash with
  | none => m ++ [(hash, ⟨tx, [signingPath], category⟩)]
  | some existing =>
      replaceEntry m hash
        ⟨existing.tx,
          (if existing.eligiblePaths.contains signingPath
            then existing.eligiblePaths
            else existing.eligiblePaths ++ [signingPath]),
          (if category = Category.initiated_by_user
            then Category.initiated_by_user
            else existing.category)⟩

/-- `if (!allSignatures.has(h)) allSignatures.set(h, sigs)`. -/
def setSigCache (s : SigMap) (hash : String) (sigs : List SigRec) : SigMap :=
  if (s.lookup hash).isSome then s else s ++ [(hash, sigs)]

/-- The prior-hop predicate of Phase 1:
`tx.signatures.some(sig => normalizeUrl(sig.signer) ===
normalizeUrl(priorHop))`. -/
def priorHopSigned (tx : PendingTx) (priorHop : String) : Bool :=
  tx.signatures.any (fun sig => normalizeUrl sig.signer == normalizeUrl priorHop)

/-- The prior hop of a multi-hop path:
`hops[hops.length - 2]`. -/
def priorHopOf (sp : SPath) : String :=
  sp.hops.getD (sp.hops.length - 2) ""

/-- Per-transaction body of Phase 1: cache the signatures, then add the
transaction as eligible for this path exactly when the prior hop has
not signed. -/
def phase1TxStep (sp : SPath) (st : EligMap × SigMap) (tx : PendingTx) :
    EligMap × SigMap :=
  if priorHopSigned tx (priorHopOf sp) then
    (st.1, setSigCache st.2 (normalizeHash tx.hash) tx.signatures)
  else
    (addEligibleTx st.1 tx sp.path Category.requiring_signature,
      setSigCache st.2 (normalizeHash tx.hash) tx.signatures)

/-- Per-path body of Phase 1: single-hop paths are skipped; otherwise
every pending transaction of the path's final signer is examined. -/
def phase1PathStep (pendingOf : String → List PendingTx)
    (st : EligMap × SigMap) (sp : SPath) : EligMap × SigMap :=
  if sp.hops.length < 2 then st
  else (pendingOf sp.finalSigner).foldl (phase1TxStep sp) st

/-- Embedding of `PendingDiscoveryService.processSigningPaths` (Phase
1).  `userKeyHashes` is accepted, as in the source's signature, and
never read.  The per-path `try/catch` never fires in the model because
the client methods (the `pendingOf` oracle) swallow their own
failures. -/
def processSigningPaths (pendingOf : String → List PendingTx)
    (signingPaths : List SPath) (userKeyHashes : List String)
    (st : EligMap × SigMap) : EligMap × SigMap :=
  signingPaths.foldl (phase1PathStep pendingOf) st

/-- The target fact tracked through Phase 1: the map holds an entry for
`h` carrying the path rendering `pp` with category
`requiring_signature`. -/
def TargetP (m : EligMap) (h pp : String) : Prop :=
  ∃ e, m.lookup h = some e ∧ pp ∈ e.eligiblePaths ∧
    e.category = Category.requiring_signature

/-- Every entry of the map has category `requiring_signature` (the
invariant of Phase 1, which only ever adds that category). -/
def AllReq (m : EligMap) : Prop :=
  ∀ h e, m.lookup h = some e → e.category = Category.requiring_signature

/-! ### State manager: reconciling the `pendingActions` subcollection -/

/-- A stored `SignatureRecord` as `StateManagerService.convertSignature`
writes it (timestamps are epoch milliseconds). -/
structure SignatureRecord where
  signer : String
  publicKeyHash : String
  vote : String
  signedAt : Nat
deriving DecidableEq, Repr

/-- The `ComputedPendingState` badge-summary document. -/
structure ComputedPendingState where
  count : Nat
  urgentCount : Nat
  initiatedCount : Nat
  requiresSignatureCount : Nat
  txHashes : List String
  computedAt : Nat
  cycleToken : String
deriving DecidableEq, Repr

/-- A `PendingActionDocument` as `buildPendingActionDocument` writes it
(the opaque `transactionType` body tag is omitted, like the body blob in
`PendingTx`). -/
structure PendingActionDocument where
  id : String
  category : Category
  type : String
  status : String
  txHash : String
  txId : String
  principal : String
  collectedSignatures : Nat
  signatures : List SignatureRecord
  eligibleSigningPaths : List String
  userHasSigned : Bool
  createdAt : Nat
  updatedAt : Nat
  discoveredAt : Nat
  expiresAt : Option Nat
deriving DecidableEq, Repr

/-- A `DiscoveryResult` as the state manager consumes it. -/
structure DiscoveryResult where
  eligibleTransactions : List EligibleTx
  totalCount : Nat
  signatures : SigMap
deriving DecidableEq, Repr

/-- The `UpdateResult` returned by `updateUserPendingState` (`added` is
JavaScript number arithmetic and may be negative). -/
structure UpdateResult where
  success : Bool
  added : Int
  removed : Nat
  cycleToken : String
deriving DecidableEq, Repr

/-- One user's slice of Firestore: the `pendingActions` subcollection as
an association list keyed by document ID, plus the
`computedState/pending` document. -/
structure UserStore where
  pendingActions : List (String × PendingActionDocument)
  computedPending : Option ComputedPendingState
deriving DecidableEq, Repr

/-- A batched `delete(pendingRef.doc(docId))`: the document at that key is
removed. -/
def storeDelete (s : List (String × PendingActionDocument)) (docId : String) :
    List (String × PendingActionDocument) :=
  s.filter (fun kv => kv.1 != docId)

/-- A batched `set(pendingRef.doc(docId), doc, merge)`: the written
document covers every field, so the set replaces the document at the key,
creating it when absent. -/
def storeSet (s : List (String × PendingActionDocument)) (docId : String)
    (doc : PendingActionDocument) : List (String × PendingActionDocument) :=
  match s.lookup docId with
  | some _ => replaceEntry s docId doc
  | none => s ++ [(docId, doc)]

/-- `FirestoreClient.updatePendingActions`: one atomic batch deleting
every id of `toRemove`, then merge-setting each document of `toAdd` at key
`action.id`, then setting the computed-state document. -/
def updatePendingActions (store : UserStore)
    (toAdd : List PendingActionDocument) (toRemove : List String)
    (computedState : ComputedPendingState) : UserStore :=
  { pendingActions :=
      toAdd.foldl (fun s a => storeSet s a.id a)
        (toRemove.foldl storeDelete store.pendingActions)
    computedPending := some computedState }

/-- `StateManagerService.convertSignature` (`sig.vote || 'approve'` also
replaces an empty vote string, matching JavaScript falsiness). -/
def convertSignature (now : Nat) (s : SigRec) : SignatureRecord :=
  { signer := s.signer
    publicKeyHash := s.publicKeyHash
    vote := match s.vote with
      | some v => if v = "" then "approve" else v
      | none => "approve"
    signedAt := s.timestamp.getD now }

/-- `StateManagerService.isUrgent`: expiring within 24 hours of the wall
clock (epoch milliseconds). -/
def isUrgent (wallNow expiry : Nat) : Bool :=
  (expiry : Int) - (wallNow : Int) < 24 * 60 * 60 * 1000

/-- `StateManagerService.buildPendingActionDocument`. -/
def buildPendingActionDocument (now : Nat) (eligible : EligibleTx)
    (signatures : List SigRec) : PendingActionDocument :=
  { id := normalizeHash eligible.tx.hash
    category := eligible.category
    type := "transaction"
    status := if signatures.length > 0 then "partially_signed" else "pending"
    txHash := eligible.tx.hash
    txId := eligible.tx.txId
    principal := eligible.tx.principal
    collectedSignatures := signatures.length
    signatures := signatures.map (convertSignature now)
    eligibleSigningPaths := eligible.eligiblePaths
    userHasSigned := false
    createdAt := now
    updatedAt := now
    discoveredAt := now
    expiresAt := eligible.tx.expiresAt }

/-- The deduplicated `newHashes` set of `updateUserPendingState`
(JavaScript `Set` iteration keeps insertion order). -/
def newHashesOf (discovery : DiscoveryResult) : List String :=
  (discovery.eligibleTransactions.map
    (fun t => normalizeHash t.tx.hash)).foldl insertUniq []

/-- The `toRemove` list of `updateUserPendingState`: ids of current
documents whose id is not among the new hashes. -/
def reconcileToRemove (store : UserStore) (newHashes : List String) :
    List String :=
  (((store.pendingActions.map Prod.snd)).filter
    (fun doc => !(newHashes.contains doc.id))).map (fun doc => doc.id)

/-- The `toAdd` list of `updateUserPendingState`: a document per eligible
transaction, preferring the signature cache over the transaction's own
signatures. -/
def reconcileToAdd (now : Nat) (discovery : DiscoveryResult) :
    List PendingActionDocument :=
  discovery.eligibleTransactions.map (fun eligible =>
    buildPendingActionDocument now eligible
      ((discovery.signatures.lookup (normalizeHash eligible.tx.hash)).getD
        eligible.tx.signatures))

/-- The computed state written alongside the reconciliation (`isUrgent`
reads the wall clock, not the server timestamp). -/
def reconcileComputedState (cycleToken : String) (now wallNow : Nat)
    (discovery : DiscoveryResult) : ComputedPendingState :=
  { count := discovery.totalCount
    urgentCount := (discovery.eligibleTransactions.filter (fun t =>
      match t.tx.expiresAt with
      | some e => isUrgent wallNow e
      | none => false)).length
    initiatedCount := (discovery.eligibleTransactions.filter (fun t =>
      t.category == Category.initiated_by_user)).length
    requiresSignatureCount := (discovery.eligibleTransactions.filter (fun t =>
      t.category == Category.requiring_signature)).length
    txHashes := newHashesOf discovery
    computedAt := now
    cycleToken := cycleToken }

/-- `StateManagerService.updateUserPendingState`, with the effectful
inputs passed explicitly: the generated cycle token, the server timestamp
`now`, the wall clock `wallNow` and the `dryRun` flag;
`previousCycleToken` is received and never read, as in the source. -/
def updateUserPendingState (cycleToken : String) (now wallNow : Nat)
    (dryRun : Bool) (previousCycleToken : Option String) (store : UserStore)
    (discovery : DiscoveryResult) : UserStore × UpdateResult :=
  let currentHashes :=
    ((store.pendingActions.map Prod.snd).map (fun p => p.id)).foldl
      insertUniq []
  let toRemove := reconcileToRemove store (newHashesOf discovery)
  let toAdd := reconcileToAdd now discovery
  let result : UpdateResult :=
    { success := true
      added := (toAdd.length : Int) - (currentHashes.length : Int)
      removed := toRemove.length
      cycleToken := cycleToken }
  if dryRun then (store, result)
  else
    (updatePendingActions store toAdd toRemove
      (reconcileComputedState cycleToken now wallNow discovery), result)

/-! ### The per-user pipeline: phases 2 and 3, discovery, and the poller
step (C5) -/

/-- `normalizePublicKeyHash` is an alias of `normalizeHash`. -/
def normalizePublicKeyHash (hash : String) : String := normalizeHash hash

/-- `extractAdiFromUrl`: normalize, drop the `acc://` scheme, and keep
everything before the first path separator. -/
def extractAdiFromUrl (url : String) : String :=
  let normalized := normalizeUrl url
  if normalized = "" then ""
  else
    let path := normalized.data.drop 6
    match idxOf? '/' path with
    | none => normalized
    | some i => ⟨"acc://".data ++ path.take i⟩

/-- A Certen user together with the stored identities the poller reads
(`CertenUserWithAdis`; profile fields no algorithm reads are omitted). -/
structure CertenUserWithAdis where
  uid : String
  adis : List CertenAdi
deriving DecidableEq, Repr

/-- `extractUserKeyHashes`: the normalized public key hashes of every
stored `key`-typed entry with a truthy hash, as a deduplicated set. -/
def extractUserKeyHashes (user : CertenUserWithAdis) : List String :=
  user.adis.foldl (fun acc adi =>
    adi.keyBooks.foldl (fun acc kb =>
      kb.keyPages.foldl (fun acc kp =>
        kp.entries.foldl (fun acc e =>
          if e.type = "key" then
            match e.publicKeyHash with
            | some h =>
                if h = "" then acc
                else insertUniq acc (normalizePublicKeyHash h)
            | none => acc
          else acc) acc) acc) acc) []

/-- `hasUserSigned`: some signature's normalized public key hash is among
the user's key hashes. -/
def hasUserSigned (signatures : List SigRec) (userKeyHashes : List String) :
    Bool :=
  signatures.any (fun sig =>
    userKeyHashes.contains (normalizePublicKeyHash sig.publicKeyHash))

/-- `determineCategory`: `initiated_by_user` when the transaction's
principal lives under the user's ADI. -/
def determineCategory (tx : PendingTx) (adiUrl : String) : Category :=
  if extractAdiFromUrl tx.principal = normalizeUrl adiUrl then
    Category.initiated_by_user
  else Category.requiring_signature

/-- `discoverAdiAccounts`: the ADI itself, its stored accounts and key
books, every directory entry, and page `1..pageCount` of every key book
(stored or found in the directory), all normalized and deduplicated in
insertion order. -/
def discoverAdiAccounts (L : Ledger) (adi : CertenAdi) : List String :=
  let accounts0 := insertUniq [] (normalizeUrl adi.adiUrl)
  let accounts1 := adi.accounts.foldl
    (fun acc a => insertUniq acc (normalizeUrl a.url)) accounts0
  let keyBookUrls0 := adi.keyBooks.foldl
    (fun ks kb => insertUniq ks (normalizeUrl kb.url)) []
  let accounts2 := adi.keyBooks.foldl
    (fun acc kb => insertUniq acc (normalizeUrl kb.url)) accounts1
  let directory := L.directoryOf adi.adiUrl
  let accounts3 := directory.foldl
    (fun acc e => insertUniq acc (normalizeUrl e)) accounts2
  let keyBookUrls := directory.foldl
    (fun ks e => insertUniq ks (normalizeUrl e)) keyBookUrls0
  keyBookUrls.foldl (fun acc bookUrl =>
    ((List.range (L.pageCountOf bookUrl)).map (fun i => i + 1)).foldl
      (fun acc i =>
        insertUniq acc (normalizeUrl (bookUrl ++ "/" ++ toString i)))
      acc) accounts3

/-- Per-transaction body of Phase 2: cache the signatures, then add the
transaction as eligible for the ADI (as path) exactly when the user has
not signed with any of their keys. -/
def phase2TxStep (adi : CertenAdi) (userKeyHashes : List String)
    (st : EligMap × SigMap) (tx : PendingTx) : EligMap × SigMap :=
  let normalizedHash := normalizeHash tx.hash
  let sigs := setSigCache st.2 normalizedHash tx.signatures
  if hasUserSigned tx.signatures userKeyHashes then (st.1, sigs)
  else
    (addEligibleTx st.1 tx adi.adiUrl (determineCategory tx adi.adiUrl), sigs)

/-- Per-account body of Phase 2: fold the account's pending transactions.
The per-account `try/catch` never fires in the model because the client
methods (the oracle) swallow their own failures. -/
def phase2AccountStep (L : Ledger) (adi : CertenAdi)
    (userKeyHashes : List String) (st : EligMap × SigMap)
    (accountUrl : String) : EligMap × SigMap :=
  (L.pendingOf accountUrl).foldl (phase2TxStep adi userKeyHashes) st

/-- Embedding of `PendingDiscoveryService.processUserAccounts` (Phase
2). -/
def processUserAccounts (L : Ledger) (user : CertenUserWithAdis)
    (userKeyHashes : List String) (st : EligMap × SigMap) :
    EligMap × SigMap :=
  user.adis.foldl (fun st adi =>
    (discoverAdiAccounts L adi).foldl (phase2AccountStep L adi userKeyHashes)
      st) st

/-- JavaScript truthiness of a JSON value. -/
def jTruthy : JVal → Bool
  | .jnull => false
  | .jbool b => b
  | .jnum n => n != 0
  | .jstr s => s != ""
  | .jarr _ => true
  | .jobj _ => true

/-- JavaScript `x || y` over possibly-absent values (`undefined` is
`none`). -/
def jsOrJ (a b : Option JVal) : Option JVal :=
  match a with
  | some x => if jTruthy x then some x else b
  | none => b

/-- `typeof v === 'object' && v !== null` (arrays are objects, `null` is
excluded). -/
def isJsObj : JVal → Bool
  | .jobj _ => true
  | .jarr _ => true
  | _ => false

mutual

/-- JavaScript `String(v)` (objects stringify to `[object Object]`,
arrays join their elements with commas). -/
def jStringOf : JVal → String
  | .jnull => "null"
  | .jbool b => if b then "true" else "false"
  | .jnum n => toString n
  | .jstr s => s
  | .jarr xs => jStringListOf xs
  | .jobj _ => "[object Object]"

/-- `String` of an array's elements, comma-separated. -/
def jStringListOf : List JVal → String
  | [] => ""
  | [x] => jStringOf x
  | x :: xs => jStringOf x ++ "," ++ jStringListOf xs

end

/-- `String(v)` where `v` may be absent (`String('')` in the sources'
`|| ''` fallbacks). -/
def jStringOfO (v : Option JVal) : String :=
  match v with
  | some x => jStringOf x
  | none => ""

/-- `String.prototype.toLowerCase`. -/
def jsToLower (s : String) : String := ⟨lowerChars s.data⟩

/-- The strict check `v === true` on a possibly-absent value. -/
def isTrueJ (v : Option JVal) : Bool :=
  match v with
  | some (.jbool true) => true
  | _ => false

/-- `PendingDiscoveryService.extractStatus`, the object branch: probe
`status.code` as number (202 pending, 201 delivered, other), then as
string, then the boolean `pending`/`delivered` flags. -/
def statusFromObject (st : JVal) : String :=
  match jfield? st "code" with
  | some (.jnum n) =>
      if n = 202 then "pending"
      else if n = 201 then "delivered"
      else "other"
  | some (.jstr c) => jsToLower c
  | _ =>
      if isTrueJ (jfield? st "pending") then "pending"
      else if isTrueJ (jfield? st "delivered") then "delivered"
      else "unknown"

/-- `PendingDiscoveryService.extractStatus`: a string status is
lowercased; an object (or array — also `typeof 'object'`, with every
probe then missing) status is probed field-wise; anything else is
`unknown`. -/
def extractStatus (txRaw : JVal) : String :=
  match jfield? txRaw "status" with
  | some (.jstr s) => jsToLower s
  | some (.jobj fs) => statusFromObject (.jobj fs)
  | some (.jarr xs) => statusFromObject (.jarr xs)
  | _ => "unknown"

/-- Phase 3, per produced record: extract the produced txID, skip empty,
already-seen or unnormalizable hashes, re-query the transaction, keep it
only when still pending, fully fetchable and not yet signed by the
user. -/
def phase3ProducedStep (L : Ledger) (userKeyHashes : List String)
    (bookUrl : String) (st : List String × EligMap × SigMap)
    (prodRec : JVal) : List String × EligMap × SigMap :=
  if !isJsObj prodRec then st
  else
    let prodTxId := jStringOfO
      (jsOrJ (jfield? prodRec "value") (jsOrJ (jfield? prodRec "id") none))
    if prodTxId = "" then st
    else
      let txHash := normalizeHash prodTxId
      if txHash = "" || st.1.contains txHash then st
      else
        let seen := st.1 ++ [txHash]
        match L.txRawOf prodTxId with
        | none => (seen, st.2)
        | some txRaw =>
            if extractStatus txRaw != "pending" then (seen, st.2)
            else
              match L.txOf prodTxId with
              | none => (seen, st.2)
              | some txDetails =>
                  if hasUserSigned txDetails.signatures userKeyHashes then
                    (seen, st.2)
                  else
                    (seen,
                      addEligibleTx st.2.1 txDetails bookUrl
                        Category.requiring_signature,
                      setSigCache st.2.2 txHash txDetails.signatures)

/-- Phase 3, per signature-chain record: keep only object records whose
message (of the record's `value`, falling back to the record itself) is
a `signatureRequest`, then fold its produced records.  A truthy
non-array `produced.records` — which in the source throws inside the
per-book `try` and abandons that book — is modelled as empty. -/
def phase3RecordStep (L : Ledger) (userKeyHashes : List String)
    (bookUrl : String) (st : List String × EligMap × SigMap) (rec : JVal) :
    List String × EligMap × SigMap :=
  if !isJsObj rec then st
  else
    let value := match jsOrJ (jfield? rec "value") (some rec) with
      | some v => v
      | none => rec
    let msgType := jStringOfO
      (jsOrJ (jfieldO (jsOrJ (jfield? value "message") none) "type") none)
    if msgType != "signatureRequest" then st
    else
      let producedRecords :=
        match jfieldO (jsOrJ (jfield? value "produced") none) "records" with
        | some (.jarr xs) => xs
        | _ => []
      producedRecords.foldl (phase3ProducedStep L userKeyHashes bookUrl) st

/-- Phase 3, per key book: read the chain length, skip empty chains, and
scan the most recent (at most 30) entries. -/
def phase3BookStep (L : Ledger) (userKeyHashes : List String)
    (st : List String × EligMap × SigMap) (bookUrl : String) :
    List String × EligMap × SigMap :=
  let total := L.sigChainTotalOf bookUrl
  if total = 0 then st
  else
    let maxEntries := 30
    let startIndex := if total > maxEntries then total - maxEntries else 0
    let count := if total > maxEntries then maxEntries else total
    (L.sigChainRecordsOf bookUrl startIndex count).foldl
      (phase3RecordStep L userKeyHashes bookUrl) st

/-- Phase 3, per ADI: the key books are the stored ones plus every
directory entry, normalized and deduplicated. -/
def phase3AdiStep (L : Ledger) (userKeyHashes : List String)
    (st : List String × EligMap × SigMap) (adi : CertenAdi) :
    List String × EligMap × SigMap :=
  let kbs0 := adi.keyBooks.foldl
    (fun ks kb => insertUniq ks (normalizeUrl kb.url)) []
  let keyBookUrls := (L.directoryOf adi.adiUrl).foldl
    (fun ks e => insertUniq ks (normalizeUrl e)) kbs0
  keyBookUrls.foldl (phase3BookStep L userKeyHashes) st

/-- Embedding of `PendingDiscoveryService.scanSignatureChains` (Phase
3). -/
def scanSignatureChains (L : Ledger) (user : CertenUserWithAdis)
    (userKeyHashes : List String) (seenHashes : List String)
    (st : EligMap × SigMap) : EligMap × SigMap :=
  (user.adis.foldl (phase3AdiStep L userKeyHashes)
    (seenHashes, st.1, st.2)).2

/-- Embedding of `PendingDiscoveryService.discoverPendingForUser`: Phase
1 over the signing paths, Phase 2 over the discovered accounts, Phase 3
over the signature chains (seeded with the hashes already found), then
the final result (the `Map` already deduplicates). -/
def discoverPendingForUser (L : Ledger) (user : CertenUserWithAdis)
    (signingPaths : List SPath) : DiscoveryResult :=
  let userKeyHashes := extractUserKeyHashes user
  let st1 := processSigningPaths L.pendingOf signingPaths userKeyHashes
    ([], [])
  let st2 := processUserAccounts L user userKeyHashes st1
  let seenHashes := st2.1.map Prod.fst
  let st3 := scanSignatureChains L user userKeyHashes seenHashes st2
  { eligibleTransactions := st3.1.map Prod.snd
    totalCount := st3.1.length
    signatures := st3.2 }

/-- The per-cycle poll statistics (`createPollStats` initialises every
counter to zero). -/
structure PollStats where
  totalUsers : Nat
  processedUsers : Nat
  skippedUsers : Nat
  failedUsers : Nat
  totalPending : Nat
  firestoreWrites : Nat
  duration : Nat
deriving DecidableEq, Repr

/-- `createPollStats()`. -/
def createPollStats : PollStats := ⟨0, 0, 0, 0, 0, 0, 0⟩

/-- Embedding of `PendingActionsPoller.processUser` acting on one user's
store slice: skip users without ADIs, otherwise discover signing paths
for every ADI, discover pending transactions and reconcile the store.
The signing-path write to the user document is outside the modelled
slice.  The surrounding `catch` (which would count the user in
`failedUsers`) is unreachable here because every client method swallows
its own RPC failures and returns a neutral value instead of throwing. -/
def processUser (L : Ledger) (maxD : Nat) (cycleToken : String)
    (now wallNow : Nat) (dryRun : Bool) (user : CertenUserWithAdis)
    (store : UserStore) (stats : PollStats) : UserStore × PollStats :=
  if user.adis.length = 0 then
    (store, { stats with skippedUsers := stats.skippedUsers + 1 })
  else
    let allPaths := user.adis.foldl
      (fun acc adi => acc ++ discoverSigningPathsF L maxD adi) []
    let discovery := discoverPendingForUser L user allPaths
    let stats1 :=
      { stats with totalPending := stats.totalPending + discovery.totalCount }
    let r := updateUserPendingState cycleToken now wallNow dryRun none store
      discovery
    (r.1,
      { stats1 with
        firestoreWrites := stats1.firestoreWrites + 1
        processedUsers := stats1.processedUsers + 1 })

/-- The ledger oracle when every RPC issued during the user's cycle
fails or times out: each client method catches its own failure and
returns its neutral value (`queryDirectory` → `[]`,
`queryKeyBookPageCount` → `0`, `queryKeyPage` → `null`, `accountExists`
→ `false`, `queryPending` → `[]`, `querySignatureChain` →
`{ records: [], total: 0 }`, `queryTransactionRaw` and
`queryTransaction` → `null`). -/
def failedLedger : Ledger :=
  { directoryOf := fun _ => []
    pageCountOf := fun _ => 0
    keyPageOf := fun _ => none
    accountExistsOf := fun _ => false
    pendingOf := fun _ => []
    sigChainTotalOf := fun _ => 0
    sigChainRecordsOf := fun _ _ _ => []
    txRawOf := fun _ => none
    txOf := fun _ => none }

/-- A user with one stored identity, for evaluating the pipeline. -/
def c5User : CertenUserWithAdis :=
  { uid := "u1"
    adis := [{ adiUrl := "acc://alice.acme"
               keyBooks := [{ url := "acc://alice.acme/book"
                              keyPages := [{ url := "acc://alice.acme/book/1"
                                             entries := [{ type := "key"
                                                           publicKeyHash :=
                                                             some "aa11"
                                                           delegateUrl :=
                                                             none }] }] }]
               accounts := [] }] }

/-- A prior inbox holding two pending-action documents. -/
def c5Store : UserStore :=
  { pendingActions :=
      [("h1", buildPendingActionDocument 0
          ⟨⟨"t1", "h1", "acc://x", [], none⟩, [],
            Category.requiring_signature⟩ []),
        ("h2", buildPendingActionDocument 0
          ⟨⟨"t2", "h2", "acc://x", [], none⟩, [],
            Category.requiring_signature⟩ [])]
    computedPending := none }


theorem takeWhile_of_findIdx?_none {c : Char} {l : List Char}
    (h : l.findIdx? (fun a => a = c) = none) :
    l.takeWhile (fun a => !(a = c)) = l := by
  rw [List.findIdx?_eq_none_iff] at h
  induction l with
  | nil => rfl
  | cons a l ih =>
      have ha : (a = c) = False := by
        simpa using h a (List.mem_cons_self a l)
      simp only [List.takeWhile_cons]
      rw [if_pos (by simp [ha])]
      rw [ih (fun x hx => h x (List.mem_cons_of_mem a hx))]

theorem takeWhile_of_findIdx?_some {c : Char} {l : List Char} {i : Nat}
    (h : l.findIdx? (fun a => a = c) = some i) :
    l.takeWhile (fun a => !(a = c)) = l.take i := by
  induction l generalizing i with
  | nil => simp at h
  | cons a l ih =>
      rw [List.findIdx?_cons] at h
      by_cases hac : a = c
      · rw [if_pos (by simp [hac])] at h
        obtain rfl : (0 : Nat) = i := by simpa using h
        simp [List.takeWhile_cons, hac]
      · rw [if_neg (by simp [hac])] at h
        rw [List.findIdx?_succ] at h
        obtain ⟨j, hj, rfl⟩ := Option.map_eq_some'.mp h
        simp [List.takeWhile_cons, hac, ih hj]

theorem truncAtPos_eq_truncAtSepA (c : Char) (s : List Char) :
    truncAtPos c s = truncAtSepA c s := by
  cases h : s.findIdx? (fun a => a = c) with
  | none =>
      have hhead : s.head? ≠ some c := by
        intro hh
        cases s with
        | nil => simp at hh
        | cons a l =>
            obtain rfl : a = c := by simpa using hh
            simp [List.findIdx?_cons] at h
      simp only [truncAtPos, idxOf?, h, truncAtSepA]
      rw [if_neg hhead, takeWhile_of_findIdx?_none h]
  | some i =>
      rcases Nat.eq_zero_or_pos i with hi | hi
      · subst hi
        have hs : s.head? = some c := by
          rw [List.findIdx?_eq_some_iff_getElem] at h
          obtain ⟨hlen, hp, _⟩ := h
          cases s with
          | nil => simp at hlen
          | cons a l => simpa using hp
        simp only [truncAtPos, idxOf?, h, truncAtSepA]
        simp [hs]
      · have hhead : s.head? ≠ some c := by
          intro hh
          cases s with
          | nil => simp at hh
          | cons a l =>
              obtain rfl : a = c := by simpa using hh
              rw [List.findIdx?_cons, if_pos (by simp)] at h
              obtain rfl : (0 : Nat) = i := by simpa using h
              omega
        simp only [truncAtPos, idxOf?, h, truncAtSepA]
        rw [if_pos hi, if_neg hhead, takeWhile_of_findIdx?_some h]

/-- The source's `normalizeHash` computes the amended reference. -/
theorem normHash_eq_amended (s : List Char) :
    normHash s = normHashAmended s := by
  simp only [normHash, normHashAmended, truncAtPos_eq_truncAtSepA]

theorem char_toLower_idem (c : Char) : c.toLower.toLower = c.toLower := by
  by_cases h : c.toNat ≥ 65 ∧ c.toNat ≤ 90
  · have h1 : c.toLower = Char.ofNat (c.toNat + 32) := by
      unfold Char.toLower
      rw [if_pos h]
    rw [h1]
    obtain ⟨h65, h90⟩ := h
    set m := c.toNat with hm
    clear_value m
    interval_cases m <;> decide
  · have h1 : c.toLower = c := by
      unfold Char.toLower
      rw [if_neg h]
    rw [h1, h1]

theorem lfix_lowerChars (s : List Char) : LFix (lowerChars s) := by
  intro a ha
  obtain ⟨b, _, rfl⟩ := List.mem_map.mp ha
  exact char_toLower_idem b

theorem lowerChars_eq_self {s : List Char} (h : LFix s) : lowerChars s = s := by
  unfold lowerChars
  rw [List.map_congr_left h]
  simp

theorem lfix_subset {s t : List Char} (hsub : t ⊆ s) (h : LFix s) : LFix t :=
  fun a ha => h a (hsub ha)

theorem trimRight_eq_rdropWhile (s : List Char) :
    trimRight s = s.rdropWhile jsWhitespaceChar := rfl

theorem trimRight_pre (s : List Char) : trimRight s <+: s := by
  rw [trimRight_eq_rdropWhile]
  exact List.rdropWhile_prefix _ _

theorem jsTrim_sublist (s : List Char) : List.Sublist (jsTrim s) s :=
  ((trimRight_pre (trimLeft s)).sublist).trans (List.dropWhile_sublist _)

theorem dropWhile_eq_self_of_head {p : Char → Bool} {s : List Char} {a : Char}
    (hh : s.head? = some a) (ha : p a = false) : s.dropWhile p = s := by
  cases s with
  | nil => rfl
  | cons b t =>
      obtain rfl : b = a := by simpa using hh
      simp [List.dropWhile_cons, ha]

theorem trimLeft_trimRight_of_trimLeft {s : List Char} (h : trimLeft s = s) :
    trimLeft (trimRight s) = trimRight s := by
  cases ht : trimRight s with
  | nil => rfl
  | cons a t =>
      have hpre : (a :: t) <+: s := ht ▸ trimRight_pre s
      obtain ⟨rest, hrest⟩ := hpre
      have hs : s = a :: (t ++ rest) := by rw [← hrest]; simp
      have hws : jsWhitespaceChar a = false := by
        by_contra hcon
        simp only [Bool.not_eq_false] at hcon
        have h2 := h
        rw [hs] at h2
        unfold trimLeft at h2
        rw [List.dropWhile_cons_of_pos hcon] at h2
        have hsub := (List.dropWhile_sublist (l := t ++ rest)
          (p := jsWhitespaceChar)).length_le
        rw [h2] at hsub
        simp at hsub
      unfold trimLeft
      exact dropWhile_eq_self_of_head rfl hws

theorem trimRight_idem (s : List Char) :
    trimRight (trimRight s) = trimRight s := by
  rw [trimRight_eq_rdropWhile, trimRight_eq_rdropWhile]
  exact List.rdropWhile_idempotent _ _

theorem trimLeft_idem (s : List Char) : trimLeft (trimLeft s) = trimLeft s :=
  List.dropWhile_idempotent _ _

theorem jsTrim_idem (s : List Char) : jsTrim (jsTrim s) = jsTrim s := by
  unfold jsTrim
  rw [trimLeft_trimRight_of_trimLeft (trimLeft_idem s), trimRight_idem]

theorem head?_take {i : Nat} {l : List Char} (hi : 0 < i) :
    (l.take i).head? = l.head? := by
  cases l with
  | nil => simp
  | cons a t =>
      cases i with
      | zero => omega
      | succ j => rfl

theorem not_mem_take_of_findIdx? {c : Char} {l : List Char} {i : Nat}
    (h : l.findIdx? (fun a => a = c) = some i) : c ∉ l.take i := by
  induction l generalizing i with
  | nil => simp
  | cons a l ih =>
      rw [List.findIdx?_cons] at h
      by_cases hac : a = c
      · rw [if_pos (by simp [hac])] at h
        obtain rfl : (0 : Nat) = i := by simpa using h
        simp
      · rw [if_neg (by simp [hac])] at h
        rw [List.findIdx?_succ] at h
        obtain ⟨j, hj, rfl⟩ := Option.map_eq_some'.mp h
        intro hmem
        rcases List.mem_cons.mp (by simpa using hmem) with hca | hcl
        · exact hac hca.symm
        · exact ih hj hcl

theorem truncAtPos_sublist (c : Char) (s : List Char) :
    List.Sublist (truncAtPos c s) s := by
  unfold truncAtPos idxOf?
  cases s.findIdx? (fun a => a = c) with
  | none => exact List.Sublist.refl s
  | some i =>
      by_cases hi : 0 < i
      · simp only [if_pos hi]
        exact List.take_sublist i s
      · simp only [if_neg hi]
        exact List.Sublist.refl s

theorem notPos_truncAtPos (c : Char) (s : List Char) :
    NotPos c (truncAtPos c s) := by
  unfold truncAtPos idxOf?
  cases h : s.findIdx? (fun a => a = c) with
  | none =>
      left
      rw [List.findIdx?_eq_none_iff] at h
      intro hmem
      simpa using h c hmem
  | some i =>
      by_cases hi : 0 < i
      · simp only [if_pos hi]
        exact Or.inl (not_mem_take_of_findIdx? h)
      · simp only [if_neg hi]
        right
        obtain rfl : i = 0 := by omega
        rw [List.findIdx?_eq_some_iff_getElem] at h
        obtain ⟨hlen, hp, _⟩ := h
        cases s with
        | nil => simp at hlen
        | cons a t => simpa using hp

theorem truncAtPos_eq_self_of_notPos {c : Char} {s : List Char}
    (h : NotPos c s) : truncAtPos c s = s := by
  unfold truncAtPos idxOf?
  cases hf : s.findIdx? (fun a => a = c) with
  | none => rfl
  | some i =>
      rcases h with hmem | hhead
      · rw [List.findIdx?_eq_some_iff_getElem] at hf
        obtain ⟨hlen, hp, _⟩ := hf
        have hc : s[i] = c := by simpa using hp
        exact absurd (hc ▸ List.getElem_mem hlen) hmem
      · cases s with
        | nil => simp at hhead
        | cons a t =>
            obtain rfl : a = c := by simpa using hhead
            rw [List.findIdx?_cons, if_pos (by simp)] at hf
            obtain rfl : (0 : Nat) = i := by simpa using hf
            simp

theorem notPos_truncAtPos_other {c d : Char} {s : List Char}
    (h : NotPos c s) : NotPos c (truncAtPos d s) := by
  rcases h with hmem | hhead
  · exact Or.inl (fun hc => hmem ((truncAtPos_sublist d s).subset hc))
  · unfold truncAtPos idxOf?
    cases s.findIdx? (fun a => a = d) with
    | none => exact Or.inr hhead
    | some i =>
        by_cases hi : 0 < i
        · simp only [if_pos hi]
          exact Or.inr ((head?_take hi).trans hhead)
        · simp only [if_neg hi]
          exact Or.inr hhead

theorem notPos_jsTrim {c : Char} {s : List Char}
    (hc : jsWhitespaceChar c = false) (h : NotPos c s) : NotPos c (jsTrim s) := by
  rcases h with hmem | hhead
  · exact Or.inl (fun hx => hmem ((jsTrim_sublist s).subset hx))
  · have hTL : trimLeft s = s := dropWhile_eq_self_of_head hhead hc
    have hJT : jsTrim s = trimRight s := by unfold jsTrim; rw [hTL]
    cases ht : trimRight s with
    | nil => exact Or.inl (by rw [hJT, ht]; simp)
    | cons a t =>
        right
        rw [hJT, ht]
        have hpre : (a :: t) <+: s := ht ▸ trimRight_pre s
        obtain ⟨rest, hrest⟩ := hpre
        have hha : s.head? = some a := by rw [← hrest]; rfl
        have hac : a = c := by
          have h2 := hha.symm.trans hhead
          simpa using h2
        simp [hac]

theorem strip0x_sublist (s : List Char) : List.Sublist (strip0x s) s := by
  unfold strip0x
  split
  · exact List.drop_sublist _ _
  · exact List.Sublist.refl s

theorem stripAcc_sublist (s : List Char) : List.Sublist (stripAcc s) s := by
  unfold stripAcc
  split
  · exact List.drop_sublist _ _
  · exact List.Sublist.refl s

/-- Auxiliary fixed-point lemma: a char list that is already trimmed,
lowercase, free of the two strippable leads, and whose `'@'` and `'/'`
occurrences are not at positive indices is untouched by `normHash`. -/
theorem normHash_fix_aux {y : List Char}
    (hytrim : jsTrim y = y) (hyl : lowerChars y = y)
    (h0 : isPre pre0x y = false) (hacc : isPre preAcc y = false)
    (hy4 : NotPos '@' y) (hy5 : NotPos '/' y) :
    normHash y = y := by
  by_cases hy0 : y = []
  · subst hy0; rfl
  · unfold normHash
    rw [if_neg hy0, hytrim, hyl]
    rw [show strip0x y = y from by simp [strip0x, h0]]
    rw [show stripAcc y = y from by simp [stripAcc, hacc]]
    rw [truncAtPos_eq_self_of_notPos hy4, truncAtPos_eq_self_of_notPos hy5,
      hytrim]

/-- Applying `normHash` twice changes nothing, provided its first result
does not itself begin with `0x` (which the `0x0x…` inputs violate). -/
theorem normHash_fixpoint {s : List Char}
    (h0 : isPre pre0x (normHash s) = false) :
    normHash (normHash s) = normHash s := by
  by_cases hs : s = []
  · subst hs; rfl
  · have hy : normHash s = jsTrim (truncAtPos '/' (truncAtPos '@'
        (stripAcc (strip0x (lowerChars (jsTrim s)))))) := by
      unfold normHash
      rw [if_neg hs]
    have hytrim : jsTrim (normHash s) = normHash s := by
      rw [hy]; exact jsTrim_idem _
    have hsub : normHash s ⊆ lowerChars (jsTrim s) := by
      rw [hy]
      intro a ha
      have h1 := (jsTrim_sublist _).subset ha
      have h2 := (truncAtPos_sublist '/' _).subset h1
      have h3 := (truncAtPos_sublist '@' _).subset h2
      have h4 := (stripAcc_sublist _).subset h3
      exact (strip0x_sublist _).subset h4
    have hyl : lowerChars (normHash s) = normHash s :=
      lowerChars_eq_self (lfix_subset hsub (lfix_lowerChars _))
    have hy4 : NotPos '@' (normHash s) := by
      rw [hy]
      exact notPos_jsTrim (by decide)
        (notPos_truncAtPos_other (notPos_truncAtPos '@' _))
    have hy5 : NotPos '/' (normHash s) := by
      rw [hy]
      exact notPos_jsTrim (by decide) (notPos_truncAtPos '/' _)
    have hacc : isPre preAcc (normHash s) = false := by
      by_contra hcon
      simp only [Bool.not_eq_false] at hcon
      have hpre : preAcc <+: normHash s := List.isPrefixOf_iff_prefix.mp hcon
      obtain ⟨rest, hrest⟩ := hpre
      rcases hy5 with hmem | hhead
      · apply hmem
        rw [← hrest]
        simp [preAcc]
      · rw [← hrest] at hhead
        simp [preAcc] at hhead
    exact normHash_fix_aux hytrim hyl h0 hacc hy4 hy5

theorem lfix_preAcc : LFix preAcc := by
  intro a ha
  simp [preAcc] at ha
  rcases ha with rfl | rfl | rfl | rfl | rfl | rfl <;> decide

theorem lfix_append {s t : List Char} (hs : LFix s) (ht : LFix t) :
    LFix (s ++ t) := by
  intro a ha
  rcases List.mem_append.mp ha with h | h
  · exact hs a h
  · exact ht a h

theorem accFix_preAcc_prefix (t : List Char) : preAcc <+: accFix t := by
  unfold accFix
  split
  · exact List.isPrefixOf_iff_prefix.mp (by assumption)
  · split
    · exact List.prefix_append _ _
    · exact List.prefix_append _ _

theorem lfix_accFix {t : List Char} (h : LFix t) : LFix (accFix t) := by
  unfold accFix
  split
  · exact h
  · split
    · exact lfix_append lfix_preAcc
        (lfix_subset (List.drop_sublist _ _).subset h)
    · exact lfix_append lfix_preAcc h

/-- Auxiliary fixed-point lemma for `normUrl`. -/
theorem normUrl_fix_aux {y : List Char}
    (hytrim : jsTrim y = y) (hyl : lowerChars y = y)
    (hypre : isPre preAcc y = true) (hslash : y.getLast? ≠ some '/') :
    normUrl y = y := by
  have hy0 : y ≠ [] := by
    intro h
    rw [h] at hypre
    exact absurd hypre (by decide)
  unfold normUrl
  rw [if_neg hy0, hyl, hytrim]
  rw [show accFix y = y from by unfold accFix; rw [if_pos hypre]]
  rw [if_neg hslash]

/-- Applying `normUrl` twice changes nothing, provided its first result
carries no trailing whitespace and no trailing slash (inner whitespace
followed by `'/'`, doubled trailing slashes, and all-whitespace inputs
violate these side conditions). -/
theorem normUrl_fixpoint {s : List Char}
    (htrim : jsTrim (normUrl s) = normUrl s)
    (hslash : (normUrl s).getLast? ≠ some '/') :
    normUrl (normUrl s) = normUrl s := by
  by_cases hs : s = []
  · subst hs; rfl
  · have hy : normUrl s =
        if (accFix (jsTrim (lowerChars s))).getLast? = some '/'
        then (accFix (jsTrim (lowerChars s))).dropLast
        else accFix (jsTrim (lowerChars s)) := by
      unfold normUrl
      rw [if_neg hs]
    have hwpre : preAcc <+: accFix (jsTrim (lowerChars s)) :=
      accFix_preAcc_prefix _
    have hLw : LFix (accFix (jsTrim (lowerChars s))) :=
      lfix_accFix (lfix_subset (jsTrim_sublist _).subset (lfix_lowerChars s))
    have hLy : LFix (normUrl s) := by
      rw [hy]
      split
      · exact lfix_subset (List.dropLast_sublist _).subset hLw
      · exact hLw
    have hypre : preAcc <+: normUrl s := by
      by_cases hc : (accFix (jsTrim (lowerChars s))).getLast? = some '/'
      · have hyeq : normUrl s = (accFix (jsTrim (lowerChars s))).dropLast := by
          rw [hy, if_pos hc]
        obtain ⟨rest, hrest⟩ := hwpre
        cases rest with
        | nil =>
            exfalso
            apply hslash
            rw [hyeq, ← hrest]
            decide
        | cons b u =>
            have hdl : (accFix (jsTrim (lowerChars s))).dropLast
                = preAcc ++ (b :: u).dropLast := by
              rw [← hrest]
              exact List.dropLast_append_of_ne_nil _ (List.cons_ne_nil b u)
            rw [hyeq, hdl]
            exact List.prefix_append _ _
      · have hyeq : normUrl s = accFix (jsTrim (lowerChars s)) := by
          rw [hy, if_neg hc]
        rw [hyeq]
        exact hwpre
    exact normUrl_fix_aux htrim (lowerChars_eq_self hLy)
      (List.isPrefixOf_iff_prefix.mpr hypre) hslash

/-- Claim C6, counterexample: on the input `"@abc"` the source's
`normalizeHash` (whose truncation guards require a positive index)
returns `"@abc"`, while the spec's reference definition (truncate at the
first `'@'` or `'/'` encountered) returns `""`, so the two differ. -/
theorem claim_C6_counterexample :
    normalizeHash "@abc" ≠ normalizeHashSpec "@abc" := by decide

/-- Claim C6 (amended): for every input string, `normalizeHash` equals
the reference definition amended so that each truncation applies only
when the separator occurs after the first character and a final trim is
appended; and `normalizeHash "0xABCD@acc://x/y" = "abcd"` holds as the
spec states. -/
theorem claim_C6 :
    (∀ s : String, normalizeHash s = normalizeHashAmended s) ∧
    normalizeHash "0xABCD@acc://x/y" = "abcd" :=
  ⟨fun s => congrArg String.mk (normHash_eq_amended s.data), by decide⟩

/-- Claim C7, counterexample: neither normalizer is idempotent.
`normalizeHash "0x0xab" = "0xab"` but renormalizing strips the surviving
`0x` again, and `normalizeUrl "abc /" = "acc://abc "` (trailing space
exposed by removing the trailing slash) but renormalizing trims it. -/
theorem claim_C7_counterexample :
    normalizeHash (normalizeHash "0x0xab") ≠ normalizeHash "0x0xab" ∧
    normalizeUrl (normalizeUrl "abc /") ≠ normalizeUrl "abc /" := by
  constructor
  · decide
  · decide

/-- Claim C7 (amended): `normalizeHash` is idempotent at every input
whose normalization does not itself start with `"0x"`, and
`normalizeUrl` is idempotent at every input whose normalization carries
no trailing whitespace and no trailing slash. -/
theorem claim_C7 :
    (∀ x : String, isPre pre0x (normalizeHash x).data = false →
      normalizeHash (normalizeHash x) = normalizeHash x) ∧
    (∀ x : String, jsTrim (normalizeUrl x).data = (normalizeUrl x).data →
      (normalizeUrl x).data.getLast? ≠ some '/' →
      normalizeUrl (normalizeUrl x) = normalizeUrl x) := by
  constructor
  · intro x h
    exact congrArg String.mk (normHash_fixpoint h)
  · intro x h1 h2
    exact congrArg String.mk (normUrl_fixpoint h1 h2)

/-- Claim C7 witness: both amended idempotence statements applied at
the concrete input `"ab"`. -/
theorem claim_C7_witness :
    normalizeHash (normalizeHash "ab") = normalizeHash "ab" ∧
    normalizeUrl (normalizeUrl "ab") = normalizeUrl "ab" :=
  ⟨claim_C7.1 "ab" (by decide), claim_C7.2 "ab" (by decide) (by decide)⟩

theorem semInv_step {s : Semaphore} (h : SemInv s) (op : SemOp) :
    SemInv (s.step op) := by
  obtain ⟨p, w⟩ := s
  obtain ⟨h1, h2⟩ := h
  simp only at h1 h2
  cases op with
  | acq =>
      simp only [Semaphore.step, Semaphore.acquire]
      split
      · rename_i hp
        have hp' : (0 : Int) < p := hp
        refine ⟨?_, fun hw => ?_⟩
        · show (0 : Int) ≤ p - 1
          omega
        · have hw' : w ≠ 0 := hw
          have h3 := h2 hw'
          show (p - 1 : Int) = 0
          omega
      · rename_i hp
        have hp' : ¬ (0 : Int) < p := hp
        refine ⟨?_, fun hw => ?_⟩
        · show (0 : Int) ≤ p
          omega
        · show (p : Int) = 0
          omega
  | rel =>
      simp only [Semaphore.step, Semaphore.releaseWoken]
      split
      · rename_i hp
        obtain ⟨hw0, hp0⟩ := hp
        have hw0' : 0 < w := hw0
        refine ⟨?_, fun hw => ?_⟩
        · show (0 : Int) ≤ p + 1 - 1
          omega
        · have h3 := h2 (by omega)
          show (p + 1 - 1 : Int) = 0
          omega
      · rename_i hp
        push_neg at hp
        refine ⟨?_, fun hw => ?_⟩
        · show (0 : Int) ≤ p + 1
          omega
        · have hw' : w ≠ 0 := hw
          have h3 : (p : Int) + 1 ≤ 0 := hp (Nat.pos_of_ne_zero hw')
          show (p + 1 : Int) = 0
          omega

theorem semInv_run {s : Semaphore} (h : SemInv s) (ops : List SemOp) :
    SemInv (s.run ops) := by
  induction ops generalizing s with
  | nil => exact h
  | cons op ops ih => exact ih (semInv_step h op)

/-- Claim C10: starting from `new Semaphore(N)` with `N ≥ 0` permits,
after every finite sequence of completed acquire/release operations the
permit counter is non-negative and a non-empty waiting queue forces a
zero permit counter; moreover every release wakes at most one waiter. -/
theorem claim_C10 :
    (∀ (n : Nat) (ops : List SemOp), SemInv (Semaphore.run (Semaphore.make n) ops)) ∧
    (∀ s : Semaphore, s.releaseWoken.2 ≤ 1) := by
  constructor
  · intro n ops
    refine semInv_run ⟨by simp [Semaphore.make], ?_⟩ ops
    intro h
    simp [Semaphore.make] at h
  · intro s
    simp only [Semaphore.releaseWoken]
    split
    · exact le_refl 1
    · exact Nat.zero_le 1

/-- Claim C10 witness: the invariant evaluated on the concrete run
`acquire` from `new Semaphore(0)` (one parked waiter, zero permits), and
the wake bound at a concrete state. -/
theorem claim_C10_witness :
    0 ≤ (Semaphore.run (Semaphore.make 0) [SemOp.acq]).permits ∧
    (Semaphore.run (Semaphore.make 0) [SemOp.acq]).waiting ≠ 0 ∧
    (Semaphore.run (Semaphore.make 0) [SemOp.acq]).permits = 0 ∧
    (Semaphore.releaseWoken (Semaphore.make 3)).2 ≤ 1 :=
  ⟨(claim_C10.1 0 [SemOp.acq]).1, by decide,
    (claim_C10.1 0 [SemOp.acq]).2 (by decide),
    claim_C10.2 (Semaphore.make 3)⟩

/-- Claim C4, counterexample: in the reachable state with one tick in
flight (`start` then one timer fire), a second timer fire is not
skipped — `tick()` passes its `isRunning` guard and a second concurrent
cycle starts (`activeTicks` becomes 2). -/
theorem claim_C4_counterexample :
    1 ≤ (pollerRun pollerStart [PollerEvent.timerFire]).activeTicks ∧
    pollerStep (pollerRun pollerStart [PollerEvent.timerFire])
        PollerEvent.timerFire
      ≠ pollerRun pollerStart [PollerEvent.timerFire] ∧
    (pollerStep (pollerRun pollerStart [PollerEvent.timerFire])
        PollerEvent.timerFire).activeTicks = 2 := by
  decide

/-- Claim C4 (amended): the `isRunning` flag gates ticks only against
shutdown — a timer fire with the flag cleared is skipped, while a timer
fire with the flag set always starts a new cycle, even when a previous
cycle is still in flight (so overlapping cycles are possible). -/
theorem claim_C4 :
    (∀ s : PollerState, s.isRunning = false →
      pollerStep s PollerEvent.timerFire = s) ∧
    (∀ s : PollerState, s.isRunning = true →
      (pollerStep s PollerEvent.timerFire).activeTicks = s.activeTicks + 1) := by
  constructor
  · intro s h
    simp [pollerStep, h]
  · intro s h
    simp [pollerStep, h]

/-- Claim C4 witness: the amended statement applied at the concrete
states `⟨false, 0⟩` and `⟨true, 1⟩`. -/
theorem claim_C4_witness :
    pollerStep ⟨false, 0⟩ PollerEvent.timerFire = ⟨false, 0⟩ ∧
    (pollerStep ⟨true, 1⟩ PollerEvent.timerFire).activeTicks = 1 + 1 :=
  ⟨claim_C4.1 ⟨false, 0⟩ rfl, claim_C4.2 ⟨true, 1⟩ rfl⟩

/-- Claim C8, counterexample: a response with a numeric top-level
`pageCount` of 5 and no `keyBook` type anywhere makes
`queryKeyBookPageCount` return 5, so a non-zero page count is returned
for an account that is not a key book. -/
theorem claim_C8_counterexample :
    queryKeyBookPageCount (some respC8) = 5 ∧
    isStr (jfieldO (jfield? respC8 "account") "type") "keyBook" = false ∧
    isStr (jfieldO (jfield? respC8 "data") "type") "keyBook" = false := by
  refine ⟨rfl, rfl, rfl⟩

/-- Claim C8 (amended): `queryKeyBookPageCount` returns 0 on RPC
failure; a non-zero result comes only from one of the three probes —
`account` with type `keyBook` and numeric page count, `data` with type
`keyBook` and numeric page count, or a numeric top-level `pageCount`
accepted without any type check; and it returns 0 whenever all three
probes miss. -/
theorem claim_C8 :
    (queryKeyBookPageCount none = 0) ∧
    (∀ r : JVal, queryKeyBookPageCount (some r) ≠ 0 →
      (∃ n : Int, keyBookCountOf (jfield? r "account") = some n) ∨
      (∃ n : Int, keyBookCountOf (jfield? r "data") = some n) ∨
      (∃ n : Int, topPageCount r = some n)) ∧
    (∀ r : JVal,
      keyBookCountOf (jfield? r "account") = none →
      keyBookCountOf (jfield? r "data") = none →
      topPageCount r = none →
      queryKeyBookPageCount (some r) = 0) := by
  refine ⟨rfl, ?_, ?_⟩
  · intro r hne
    simp only [queryKeyBookPageCount] at hne
    cases ha : keyBookCountOf (jfield? r "account") with
    | some n => exact Or.inl ⟨n, rfl⟩
    | none =>
        rw [ha] at hne
        cases hd : keyBookCountOf (jfield? r "data") with
        | some n => exact Or.inr (Or.inl ⟨n, rfl⟩)
        | none =>
            rw [hd] at hne
            cases ht : topPageCount r with
            | some n => exact Or.inr (Or.inr ⟨n, rfl⟩)
            | none =>
                rw [ht] at hne
                exact absurd rfl hne
  · intro r ha hd ht
    simp only [queryKeyBookPageCount]
    rw [ha, hd, ht]

/-- Claim C8 witness: the amended statement applied at the concrete
response with a bare top-level page count (probe disjunction) and at the
empty-object response (zero result). -/
theorem claim_C8_witness :
    ((∃ n : Int, keyBookCountOf (jfield? respC8 "account") = some n) ∨
     (∃ n : Int, keyBookCountOf (jfield? respC8 "data") = some n) ∨
     (∃ n : Int, topPageCount respC8 = some n)) ∧
    queryKeyBookPageCount (some (JVal.jobj [])) = 0 :=
  ⟨claim_C8.2.1 respC8 (by decide),
    claim_C8.2.2 (JVal.jobj []) rfl rfl rfl⟩

theorem foldl_eq_of_eq {α β : Type} {f g : α → β → α}
    (h : ∀ a b, f a b = g a b) :
    ∀ (l : List β) (a : α), l.foldl f a = l.foldl g a := by
  intro l
  induction l with
  | nil => intro a; rfl
  | cons b bs ih =>
      intro a
      simp only [List.foldl_cons, h]
      exact ih (g a b)

theorem followFuel_eq (L : Ledger) (maxDepth : Nat) :
    ∀ (fuel depth : Nat), maxDepth + 1 - depth ≤ fuel →
    ∀ targetUrl currentPath visited results,
      followFuel L maxDepth fuel targetUrl currentPath visited results depth =
        followDelegationChain L maxDepth targetUrl currentPath visited results
          depth := by
  intro fuel
  induction fuel with
  | zero =>
      intro depth hle t cp v r
      have hd : depth > maxDepth := by omega
      rw [followDelegationChain]
      rw [dif_pos (Or.inr hd)]
      rfl
  | succ fuel ih =>
      intro depth hle t cp v r
      rw [followDelegationChain]
      simp only [followFuel]
      by_cases hg : v.contains (normalizeUrl t) ∨ depth > maxDepth
      · rw [if_pos hg, dif_pos hg]
      · rw [if_neg hg, dif_neg hg]
        by_cases he : L.accountExistsOf (normalizeUrl t)
        · rw [if_pos he, if_pos he]
          cases L.keyPageOf (normalizeUrl t) with
          | none => rfl
          | some keys =>
              exact foldl_eq_of_eq
                (fun st d => ih (depth + 1) (by omega) d _ st.1 st.2) _ _
        · rw [if_neg he, if_neg he]

theorem discoverSigningPathsF_eq (L : Ledger) (maxD : Nat)
    (adi : CertenAdi) :
    discoverSigningPathsF L maxD adi = discoverSigningPaths L maxD adi := by
  unfold discoverSigningPathsF discoverSigningPaths
  have hfol : (fun t cp v r => followFuel L maxD (maxD + 1) t cp v r 1)
      = (fun t cp v r => followDelegationChain L maxD t cp v r 1) := by
    funext t cp v r
    exact followFuel_eq L maxD (maxD + 1) 1 (by omega) t cp v r
  rw [hfol]

theorem foldl_pres {α β : Type} {P : α → Prop} {f : α → β → α}
    (h : ∀ a b, P a → P (f a b)) :
    ∀ (l : List β) (a : α), P a → P (l.foldl f a) := by
  intro l
  induction l with
  | nil => intro a ha; exact ha
  | cons b bs ih => intro a ha; exact ih _ (h a b ha)

theorem tail_append_singleton {cp : List String} (h : cp ≠ []) (x : String) :
    (cp ++ [x]).tail = cp.tail ++ [x] := by
  cases cp with
  | nil => exact absurd rfl h
  | cons a l => rfl

theorem nodup_append_singleton {v : List String} {x : String}
    (hv : v.Nodup) (hx : x ∉ v) : (v ++ [x]).Nodup := by
  refine hv.append (List.nodup_singleton x) ?_
  intro a hav hax
  have hax2 : a = x := by simpa using hax
  rw [hax2] at hav
  exact hx hav

theorem fold_ext {F : FSt → String → FSt} {b : List String}
    (h1 : ∀ st d, ∃ e, (F st d).1 = st.1 ++ e) :
    ∀ (ds : List String) (st : FSt), (∃ e, st.1 = b ++ e) →
      ∃ e, (ds.foldl F st).1 = b ++ e := by
  intro ds
  refine foldl_pres ?_ ds
  intro st d ⟨e, hst⟩
  obtain ⟨e2, h2⟩ := h1 st d
  exact ⟨e ++ e2, by rw [h2, hst, List.append_assoc]⟩

theorem fold_nodup {F : FSt → String → FSt}
    (h2 : ∀ st d, st.1.Nodup → (F st d).1.Nodup) :
    ∀ (ds : List String) (st : FSt), st.1.Nodup →
      (ds.foldl F st).1.Nodup := by
  intro ds
  refine foldl_pres ?_ ds
  intro st d hst
  exact h2 st d hst

theorem fold_good {F : FSt → String → FSt} {b : List String}
    {tl : List String} {G : SPath → Prop}
    (h1 : ∀ st d, ∃ e, (F st d).1 = st.1 ++ e)
    (h3 : ∀ st d, (∀ u ∈ tl, u ∈ st.1) → (∀ p ∈ st.2, G p) →
      ∀ p ∈ (F st d).2, G p)
    (htl : ∀ u ∈ tl, u ∈ b) :
    ∀ (ds : List String) (st : FSt),
      ((∃ e, st.1 = b ++ e) ∧ (∀ p ∈ st.2, G p)) →
      ((∃ e, (ds.foldl F st).1 = b ++ e) ∧
        (∀ p ∈ (ds.foldl F st).2, G p)) := by
  intro ds
  refine foldl_pres ?_ ds
  intro st d ⟨⟨e, hst⟩, hgood⟩
  obtain ⟨e2, h2⟩ := h1 st d
  refine ⟨⟨e ++ e2, by rw [h2, hst, List.append_assoc]⟩, ?_⟩
  refine h3 st d ?_ hgood
  intro u hu
  rw [hst]
  exact List.mem_append.mpr (Or.inl (htl u hu))

/-- Combined inductive specification of `followDelegationChain`: the
returned `visited` extends the given one; `Nodup` of `visited` is
preserved (each URL is recorded at most once); and when the current
path is a non-empty chain of length `depth` whose non-initial hops are
recorded in `visited`, every produced path is bounded by `maxD + 1`
hops with duplicate-free tail. -/
theorem follow_spec (L : Ledger) (maxD : Nat) :
    ∀ (k depth : Nat), maxD + 1 - depth ≤ k →
    ∀ (t : String) (cp v : List String) (r : List SPath),
      (∃ e, (followDelegationChain L maxD t cp v r depth).1 = v ++ e) ∧
      (v.Nodup → (followDelegationChain L maxD t cp v r depth).1.Nodup) ∧
      (cp ≠ [] → cp.length = depth → cp.tail.Nodup →
        (∀ u ∈ cp.tail, u ∈ v) → (∀ p ∈ r, goodPath maxD p) →
        ∀ p ∈ (followDelegationChain L maxD t cp v r depth).2,
          goodPath maxD p) := by
  intro k
  induction k with
  | zero =>
      intro depth hle t cp v r
      have hd : depth > maxD := by omega
      rw [followDelegationChain, dif_pos (Or.inr hd)]
      exact ⟨⟨[], by simp⟩, fun h => h,
        fun _ _ _ _ hres p hp => hres p hp⟩
  | succ k ih =>
      intro depth hle t cp v r
      rw [followDelegationChain]
      by_cases hg : v.contains (normalizeUrl t) ∨ depth > maxD
      · rw [dif_pos hg]
        exact ⟨⟨[], by simp⟩, fun h => h,
          fun _ _ _ _ hres p hp => hres p hp⟩
      · rw [dif_neg hg]
        rw [not_or] at hg
        obtain ⟨hgc, hgd⟩ := hg
        have hnm : normalizeUrl t ∉ v := by simpa using hgc
        have hdep : depth ≤ maxD := by omega
        have hnewgood : ∀ (hcp : cp ≠ []) (hlen : cp.length = depth)
            (hnd : cp.tail.Nodup) (hsub : ∀ u ∈ cp.tail, u ∈ v),
            goodPath maxD ⟨renderPath (cp ++ [normalizeUrl t]),
              cp ++ [normalizeUrl t], normalizeUrl t⟩ := by
          intro hcp hlen hnd hsub
          refine ⟨?_, ?_, ?_⟩
          · simp only
            rw [List.length_append, hlen]
            simpa using hdep
          · simp
          · simp only
            rw [tail_append_singleton hcp]
            exact nodup_append_singleton hnd (fun hx => hnm (hsub _ hx))
        by_cases he : L.accountExistsOf (normalizeUrl t)
        · rw [if_pos he]
          cases hk : L.keyPageOf (normalizeUrl t) with
          | none =>
              refine ⟨⟨[normalizeUrl t], rfl⟩,
                fun hv => nodup_append_singleton hv hnm, ?_⟩
              intro hcp hlen hnd hsub hres p hp
              rcases List.mem_append.mp hp with hold | hnew
              · exact hres p hold
              · have hpeq : p = ⟨renderPath (cp ++ [normalizeUrl t]),
                    cp ++ [normalizeUrl t], normalizeUrl t⟩ := by
                  simpa using hnew
                rw [hpeq]
                exact hnewgood hcp hlen hnd hsub
          | some keys =>
              have hstep1 : ∀ (st : FSt) (d : String),
                  ∃ e, (followDelegationChain L maxD d
                      (cp ++ [normalizeUrl t]) st.1 st.2 (depth + 1)).1
                    = st.1 ++ e :=
                fun st d =>
                  (ih (depth + 1) (by omega) d (cp ++ [normalizeUrl t])
                    st.1 st.2).1
              have hstep2 : ∀ (st : FSt) (d : String),
                  st.1.Nodup →
                  (followDelegationChain L maxD d (cp ++ [normalizeUrl t])
                    st.1 st.2 (depth + 1)).1.Nodup :=
                fun st d =>
                  (ih (depth + 1) (by omega) d (cp ++ [normalizeUrl t])
                    st.1 st.2).2.1
              refine ⟨?_, ?_, ?_⟩
              · obtain ⟨e, hee⟩ := fold_ext (b := v ++ [normalizeUrl t])
                  hstep1 (delegatesOf keys) (v ++ [normalizeUrl t],
                    r ++ [⟨renderPath (cp ++ [normalizeUrl t]),
                      cp ++ [normalizeUrl t], normalizeUrl t⟩])
                  ⟨[], by simp⟩
                refine ⟨[normalizeUrl t] ++ e, ?_⟩
                rw [← List.append_assoc]
                exact hee
              · intro hv
                exact fold_nodup hstep2 (delegatesOf keys)
                  (v ++ [normalizeUrl t],
                    r ++ [⟨renderPath (cp ++ [normalizeUrl t]),
                      cp ++ [normalizeUrl t], normalizeUrl t⟩])
                  (nodup_append_singleton hv hnm)
              · intro hcp hlen hnd hsub hres
                have hstep3 : ∀ (st : FSt) (d : String),
                    (∀ u ∈ cp.tail ++ [normalizeUrl t], u ∈ st.1) →
                    (∀ p ∈ st.2, goodPath maxD p) →
                    ∀ p ∈ (followDelegationChain L maxD d
                        (cp ++ [normalizeUrl t]) st.1 st.2 (depth + 1)).2,
                      goodPath maxD p := by
                  intro st d hmem hgood
                  refine (ih (depth + 1) (by omega) d
                      (cp ++ [normalizeUrl t]) st.1 st.2).2.2
                    (by simp) (by simp [hlen]) ?_ ?_ hgood
                  · rw [tail_append_singleton hcp]
                    exact nodup_append_singleton hnd
                      (fun hx => hnm (hsub _ hx))
                  · rw [tail_append_singleton hcp]
                    exact hmem
                have htl : ∀ u ∈ cp.tail ++ [normalizeUrl t],
                    u ∈ v ++ [normalizeUrl t] := by
                  intro u hu
                  rcases List.mem_append.mp hu with h | h
                  · exact List.mem_append.mpr (Or.inl (hsub u h))
                  · exact List.mem_append.mpr (Or.inr h)
                have hbase : (∀ p ∈ r ++ [⟨renderPath
                    (cp ++ [normalizeUrl t]), cp ++ [normalizeUrl t],
                    normalizeUrl t⟩], goodPath maxD p) := by
                  intro p hp
                  rcases List.mem_append.mp hp with hold | hnew
                  · exact hres p hold
                  · have hpeq : p = ⟨renderPath (cp ++ [normalizeUrl t]),
                        cp ++ [normalizeUrl t], normalizeUrl t⟩ := by
                      simpa using hnew
                    rw [hpeq]
                    exact hnewgood hcp hlen hnd hsub
                exact (fold_good (b := v ++ [normalizeUrl t])
                  hstep1 hstep3 htl (delegatesOf keys)
                  (v ++ [normalizeUrl t],
                    r ++ [⟨renderPath (cp ++ [normalizeUrl t]),
                      cp ++ [normalizeUrl t], normalizeUrl t⟩])
                  ⟨⟨[], by simp⟩, hbase⟩).2
        · rw [if_neg he]
          refine ⟨⟨[normalizeUrl t], rfl⟩,
            fun hv => nodup_append_singleton hv hnm, ?_⟩
          intro _ _ _ _ hres p hp
          exact hres p hp

/-- A DFS launch from a direct page (initial path `[page]`, depth 1)
turns good results into good results. -/
theorem exploreStep_good (L : Ledger) (maxD : Nat) (page t : String)
    (vr : FSt) (h : ∀ p ∈ vr.2, goodPath maxD p) :
    ∀ p ∈ (followDelegationChain L maxD t [page] vr.1 vr.2 1).2,
      goodPath maxD p :=
  (follow_spec L maxD (maxD + 1) 1 (by omega) t [page] vr.1 vr.2).2.2
    (by simp) (by simp) (by simp) (by simp) h

/-- A direct single-hop path is good. -/
theorem singleHop_good (maxD : Nat) (page : String) :
    goodPath maxD ⟨page, [page], page⟩ := by
  refine ⟨?_, by simp, by simp⟩
  simp only [List.length_singleton]
  omega

theorem storedPagesLoop_good (L : Ledger) (maxD : Nat) (adi : CertenAdi) :
    ∀ p ∈ (storedPagesLoop
        (fun t cp v r => followDelegationChain L maxD t cp v r 1)
        adi).paths,
      goodPath maxD p := by
  unfold storedPagesLoop
  refine foldl_pres
    (P := fun st : ExploreSt => ∀ p ∈ st.paths, goodPath maxD p)
    ?_ adi.keyBooks ⟨[], [], []⟩ (by simp)
  intro st kb hst
  refine foldl_pres
    (P := fun st : ExploreSt => ∀ p ∈ st.paths, goodPath maxD p)
    ?_ kb.keyPages st hst
  intro st kp hst
  by_cases hproc : st.processed.contains (normalizeUrl kp.url)
  · rw [if_pos hproc]
    exact hst
  · rw [if_neg hproc]
    intro p hp
    refine foldl_pres
      (P := fun vr : FSt => ∀ q ∈ vr.2, goodPath maxD q)
      ?_ (extractDelegates kp)
      (st.visited, st.paths ++ [⟨normalizeUrl kp.url,
        [normalizeUrl kp.url], normalizeUrl kp.url⟩]) ?_ p hp
    · intro vr d hvr
      exact exploreStep_good L maxD (normalizeUrl kp.url) d vr hvr
    · intro q hq
      rcases List.mem_append.mp hq with hold | hnew
      · exact hst q hold
      · have hq2 : q = ⟨normalizeUrl kp.url, [normalizeUrl kp.url],
            normalizeUrl kp.url⟩ := by simpa using hnew
        rw [hq2]
        exact singleHop_good maxD _

theorem liveBooksLoop_good (L : Ledger) (maxD : Nat)
    (keyBookUrls : List String) (st0 : ExploreSt)
    (h0 : ∀ p ∈ st0.paths, goodPath maxD p) :
    ∀ p ∈ (liveBooksLoop L
        (fun t cp v r => followDelegationChain L maxD t cp v r 1)
        keyBookUrls st0).paths,
      goodPath maxD p := by
  unfold liveBooksLoop
  refine foldl_pres
    (P := fun st : ExploreSt => ∀ p ∈ st.paths, goodPath maxD p)
    ?_ keyBookUrls st0 h0
  intro st bookUrl hst
  by_cases hpc : L.pageCountOf bookUrl = 0
  · rw [if_pos hpc]
    exact hst
  · rw [if_neg hpc]
    refine foldl_pres
      (P := fun st : ExploreSt => ∀ p ∈ st.paths, goodPath maxD p)
      ?_ (List.range' 1 (L.pageCountOf bookUrl)) st hst
    intro st i hst
    by_cases hproc : st.processed.contains
        (normalizeUrl (bookUrl ++ "/" ++ toString i))
    · rw [if_pos hproc]
      exact hst
    · rw [if_neg hproc]
      cases hk : L.keyPageOf (normalizeUrl (bookUrl ++ "/" ++ toString i)) with
      | none =>
          intro p hp
          have hp2 : p ∈ st.paths ++ [⟨normalizeUrl (bookUrl ++ "/" ++
              toString i), [normalizeUrl (bookUrl ++ "/" ++ toString i)],
              normalizeUrl (bookUrl ++ "/" ++ toString i)⟩] := hp
          rcases List.mem_append.mp hp2 with hold | hnew
          · exact hst p hold
          · have hq2 : p = ⟨normalizeUrl (bookUrl ++ "/" ++ toString i),
                [normalizeUrl (bookUrl ++ "/" ++ toString i)],
                normalizeUrl (bookUrl ++ "/" ++ toString i)⟩ := by
              simpa using hnew
            rw [hq2]
            exact singleHop_good maxD _
      | some keys =>
          intro p hp
          refine foldl_pres
            (P := fun vr : FSt => ∀ q ∈ vr.2, goodPath maxD q)
            ?_ (delegatesOf keys)
            (st.visited, st.paths ++ [⟨normalizeUrl (bookUrl ++ "/" ++
              toString i), [normalizeUrl (bookUrl ++ "/" ++ toString i)],
              normalizeUrl (bookUrl ++ "/" ++ toString i)⟩]) ?_ p hp
          · intro vr d hvr
            exact exploreStep_good L maxD
              (normalizeUrl (bookUrl ++ "/" ++ toString i)) d vr hvr
          · intro q hq
            rcases List.mem_append.mp hq with hold | hnew
            · exact hst q hold
            · have hq2 : q = ⟨normalizeUrl (bookUrl ++ "/" ++ toString i),
                  [normalizeUrl (bookUrl ++ "/" ++ toString i)],
                  normalizeUrl (bookUrl ++ "/" ++ toString i)⟩ := by
                simpa using hnew
              rw [hq2]
              exact singleHop_good maxD _

/-- Claim C2, counterexample: with page A delegating to B and B
delegating back to A, the explorer produces the path with hops
`[A, B, A]`, which contains the URL A twice — the launch page is never
entered into `visited`, so cycles back to it are not cut. -/
theorem claim_C2_counterexample :
    (⟨cexPageA ++ arrowSep ++ cexPageB ++ arrowSep ++ cexPageA,
        [cexPageA, cexPageB, cexPageA], cexPageA⟩ : SPath)
      ∈ discoverSigningPaths cexLedger 10 cexAdi ∧
    ¬ ([cexPageA, cexPageB, cexPageA] : List String).Nodup := by
  constructor
  · rw [← discoverSigningPathsF_eq]
    decide
  · decide

/-- Claim C2 (amended): every signing path produced by the explorer has
at most `DELEGATION_DEPTH + 1` hops, is non-empty, and its hops after
the first contain no duplicates; only the first hop may be revisited
(at most once), when a delegation cycle leads back to the launch page. -/
theorem claim_C2 :
    ∀ (L : Ledger) (maxD : Nat) (adi : CertenAdi),
      ∀ p ∈ discoverSigningPaths L maxD adi,
        p.hops.length ≤ maxD + 1 ∧ p.hops ≠ [] ∧ p.hops.tail.Nodup := by
  intro L maxD adi p hp
  exact liveBooksLoop_good L maxD _ _
    (storedPagesLoop_good L maxD adi) p hp

/-- Claim C2 witness: the amended bound evaluated on the concrete
delegation-cycle scenario. -/
theorem claim_C2_witness :
    (⟨cexPageA ++ arrowSep ++ cexPageB ++ arrowSep ++ cexPageA,
        [cexPageA, cexPageB, cexPageA], cexPageA⟩ : SPath).hops.length
        ≤ 10 + 1 ∧
    (⟨cexPageA ++ arrowSep ++ cexPageB ++ arrowSep ++ cexPageA,
        [cexPageA, cexPageB, cexPageA], cexPageA⟩ : SPath).hops ≠ [] ∧
    (⟨cexPageA ++ arrowSep ++ cexPageB ++ arrowSep ++ cexPageA,
        [cexPageA, cexPageB, cexPageA], cexPageA⟩ : SPath).hops.tail.Nodup :=
  claim_C2 cexLedger 10 cexAdi _
    (by rw [← discoverSigningPathsF_eq]; decide)

/-- Claim C9: `followDelegationChain` terminates on every delegation
graph (it is a total function of this development, with the recursion's
well-foundedness witnessed by the depth budget); moreover each call with
the target already visited or the depth past `maxDepth` returns its
arguments unchanged, every call only extends `visited`, a call passing
the guard strictly grows `visited`, and a duplicate-free `visited` stays
duplicate-free, so each target URL is recorded at most once. -/
theorem claim_C9 :
    ∀ (L : Ledger) (maxD : Nat) (t : String) (cp v : List String)
      (r : List SPath) (depth : Nat),
      ((v.contains (normalizeUrl t) ∨ depth > maxD) →
        followDelegationChain L maxD t cp v r depth = (v, r)) ∧
      (∃ e, (followDelegationChain L maxD t cp v r depth).1 = v ++ e) ∧
      (¬ (v.contains (normalizeUrl t) ∨ depth > maxD) →
        v.length < (followDelegationChain L maxD t cp v r depth).1.length) ∧
      (v.Nodup → (followDelegationChain L maxD t cp v r depth).1.Nodup) := by
  intro L maxD t cp v r depth
  have hspec := follow_spec L maxD (maxD + 1 - depth) depth (le_refl _)
    t cp v r
  refine ⟨?_, hspec.1, ?_, hspec.2.1⟩
  · intro hg
    rw [followDelegationChain, dif_pos hg]
  · intro hg
    rw [followDelegationChain, dif_neg hg]
    have hstep1 : ∀ (st : FSt) (d : String),
        ∃ e, (followDelegationChain L maxD d (cp ++ [normalizeUrl t])
            st.1 st.2 (depth + 1)).1 = st.1 ++ e :=
      fun st d =>
        (follow_spec L maxD (maxD + 1 - (depth + 1)) (depth + 1)
          (le_refl _) d (cp ++ [normalizeUrl t]) st.1 st.2).1
    by_cases he : L.accountExistsOf (normalizeUrl t)
    · rw [if_pos he]
      cases hk : L.keyPageOf (normalizeUrl t) with
      | none => simp
      | some keys =>
          obtain ⟨e, hee⟩ := fold_ext (b := v ++ [normalizeUrl t])
            hstep1 (delegatesOf keys) (v ++ [normalizeUrl t],
              r ++ [⟨renderPath (cp ++ [normalizeUrl t]),
                cp ++ [normalizeUrl t], normalizeUrl t⟩])
            ⟨[], by simp⟩
          show v.length < ((delegatesOf keys).foldl
              (fun st d => followDelegationChain L maxD d
                (cp ++ [normalizeUrl t]) st.1 st.2 (depth + 1))
              (v ++ [normalizeUrl t],
                r ++ [⟨renderPath (cp ++ [normalizeUrl t]),
                  cp ++ [normalizeUrl t], normalizeUrl t⟩])).1.length
          rw [hee]
          simp only [List.length_append, List.length_singleton]
          omega
    · rw [if_neg he]
      simp

/-- Claim C9 witness: the four statements applied at concrete inputs —
a visited target returning unchanged, and a fresh target strictly
growing a duplicate-free `visited`. -/
theorem claim_C9_witness :
    followDelegationChain cexLedger 10 cexPageA [] [cexPageA] [] 1
        = ([cexPageA], []) ∧
    (∃ e, (followDelegationChain cexLedger 10 cexPageA [cexPageB] [] [] 1).1
        = [] ++ e) ∧
    ([] : List String).length <
      (followDelegationChain cexLedger 10 cexPageA [cexPageB] [] [] 1).1.length ∧
    (followDelegationChain cexLedger 10 cexPageA [cexPageB] [] [] 1).1.Nodup :=
  ⟨(claim_C9 cexLedger 10 cexPageA [] [cexPageA] [] 1).1 (by decide),
    (claim_C9 cexLedger 10 cexPageA [cexPageB] [] [] 1).2.1,
    (claim_C9 cexLedger 10 cexPageA [cexPageB] [] [] 1).2.2.1 (by decide),
    (claim_C9 cexLedger 10 cexPageA [cexPageB] [] [] 1).2.2.2 (by decide)⟩

theorem foldl_pres_mem {α β : Type} {P : α → Prop} {f : α → β → α} :
    ∀ (l : List β), (∀ a b, b ∈ l → P a → P (f a b)) →
    ∀ (a : α), P a → P (l.foldl f a) := by
  intro l
  induction l with
  | nil => intro _ a ha; exact ha
  | cons b bs ih =>
      intro h a ha
      exact ih (fun a c hc => h a c (List.mem_cons_of_mem b hc)) _
        (h a b (List.mem_cons_self b bs) ha)

theorem lookup_cons_if {β : Type} {k a : String} {v : β}
    {es : List (String × β)} :
    ((k, v) :: es).lookup a = if a = k then some v else es.lookup a := by
  rw [List.lookup_cons]
  by_cases h : a = k
  · rw [if_pos h]
    have hb : (a == k) = true := by simp [h]
    rw [hb]
  · rw [if_neg h]
    have hb : (a == k) = false := by simp [h]
    rw [hb]

theorem lookup_replaceEntry_self {β : Type} {m : List (String × β)}
    {hash : String} {ex e : β} (h : m.lookup hash = some ex) :
    (replaceEntry m hash e).lookup hash = some e := by
  induction m with
  | nil => simp at h
  | cons kv rest ih =>
      obtain ⟨k, v⟩ := kv
      by_cases hk : k = hash
      · subst hk
        simp [replaceEntry, lookup_cons_if]
      · rw [lookup_cons_if, if_neg (fun hx => hk hx.symm)] at h
        simp only [replaceEntry, List.map_cons]
        have hhead : (if (k, v).1 = hash then (hash, e) else (k, v))
            = (k, v) := by simp [hk]
        rw [hhead, lookup_cons_if, if_neg (fun hx => hk hx.symm)]
        exact ih h

theorem lookup_replaceEntry_ne {β : Type} {m : List (String × β)}
    {hash : String} {e : β} {h : String} (hne : h ≠ hash) :
    (replaceEntry m hash e).lookup h = m.lookup h := by
  induction m with
  | nil => rfl
  | cons kv rest ih =>
      obtain ⟨k, v⟩ := kv
      simp only [replaceEntry, List.map_cons]
      by_cases hk : k = hash
      · subst hk
        have hhead : (if (k, v).1 = k then (k, e) else (k, v))
            = (k, e) := by simp
        rw [hhead, lookup_cons_if, if_neg hne, lookup_cons_if, if_neg hne]
        exact ih
      · have hhead : (if (k, v).1 = hash then (hash, e) else (k, v))
            = (k, v) := by simp [hk]
        rw [hhead, lookup_cons_if, lookup_cons_if]
        by_cases hak : h = k
        · rw [if_pos hak, if_pos hak]
        · rw [if_neg hak, if_neg hak]
          exact ih

theorem addEligibleTx_eq_none {m : EligMap} {tx : PendingTx}
    {p : String} {c : Category}
    (h : m.lookup (normalizeHash tx.hash) = none) :
    addEligibleTx m tx p c
      = m ++ [(normalizeHash tx.hash, ⟨tx, [p], c⟩)] := by
  show (match m.lookup (normalizeHash tx.hash) with
    | none => m ++ [(normalizeHash tx.hash, ⟨tx, [p], c⟩)]
    | some existing =>
        replaceEntry m (normalizeHash tx.hash)
          ⟨existing.tx,
            (if existing.eligiblePaths.contains p then existing.eligiblePaths
              else existing.eligiblePaths ++ [p]),
            (if c = Category.initiated_by_user
              then Category.initiated_by_user else existing.category)⟩)
    = m ++ [(normalizeHash tx.hash, ⟨tx, [p], c⟩)]
  rw [h]

theorem addEligibleTx_eq_some {m : EligMap} {tx : PendingTx}
    {p : String} {c : Category} {ex : EligibleTx}
    (h : m.lookup (normalizeHash tx.hash) = some ex) :
    addEligibleTx m tx p c
      = replaceEntry m (normalizeHash tx.hash)
          ⟨ex.tx,
            (if ex.eligiblePaths.contains p then ex.eligiblePaths
              else ex.eligiblePaths ++ [p]),
            (if c = Category.initiated_by_user
              then Category.initiated_by_user else ex.category)⟩ := by
  show (match m.lookup (normalizeHash tx.hash) with
    | none => m ++ [(normalizeHash tx.hash, ⟨tx, [p], c⟩)]
    | some existing =>
        replaceEntry m (normalizeHash tx.hash)
          ⟨existing.tx,
            (if existing.eligiblePaths.contains p then existing.eligiblePaths
              else existing.eligiblePaths ++ [p]),
            (if c = Category.initiated_by_user
              then Category.initiated_by_user else existing.category)⟩)
    = replaceEntry m (normalizeHash tx.hash)
        ⟨ex.tx,
          (if ex.eligiblePaths.contains p then ex.eligiblePaths
            else ex.eligiblePaths ++ [p]),
          (if c = Category.initiated_by_user
            then Category.initiated_by_user else ex.category)⟩
  rw [h]

theorem addReq_preserves_target {m : EligMap} {tx : PendingTx}
    {p h0 pp : String} (hT : TargetP m h0 pp) :
    TargetP (addEligibleTx m tx p Category.requiring_signature) h0 pp := by
  obtain ⟨e, he, hpp, hcat⟩ := hT
  cases hl : m.lookup (normalizeHash tx.hash) with
  | none =>
      rw [addEligibleTx_eq_none hl]
      refine ⟨e, ?_, hpp, hcat⟩
      rw [List.lookup_append, he]
      rfl
  | some ex =>
      rw [addEligibleTx_eq_some hl]
      by_cases hh : h0 = normalizeHash tx.hash
      · subst hh
        obtain rfl : e = ex := Option.some.inj (he.symm.trans hl)
        refine ⟨_, lookup_replaceEntry_self hl, ?_, ?_⟩
        · by_cases hc : e.eligiblePaths.contains p
          · simp only [if_pos hc]
            exact hpp
          · simp only [if_neg hc]
            exact List.mem_append.mpr (Or.inl hpp)
        · simp only
          rw [if_neg (by decide : ¬ (Category.requiring_signature
            = Category.initiated_by_user))]
          exact hcat
      · refine ⟨e, ?_, hpp, hcat⟩
        rw [lookup_replaceEntry_ne hh]
        exact he

theorem addReq_allreq {m : EligMap} {tx : PendingTx} {p : String}
    (hAR : AllReq m) :
    AllReq (addEligibleTx m tx p Category.requiring_signature) := by
  cases hl : m.lookup (normalizeHash tx.hash) with
  | none =>
      rw [addEligibleTx_eq_none hl]
      intro h e he
      rw [List.lookup_append] at he
      cases hm : m.lookup h with
      | some e0 =>
          rw [hm] at he
          rw [Option.or_some] at he
          obtain rfl : e0 = e := Option.some.inj he
          exact hAR h e0 hm
      | none =>
          rw [hm] at he
          rw [Option.none_or] at he
          rw [lookup_cons_if] at he
          by_cases hh : h = normalizeHash tx.hash
          · rw [if_pos hh] at he
            obtain rfl := Option.some.inj he
            rfl
          · rw [if_neg hh] at he
            simp at he
  | some ex =>
      rw [addEligibleTx_eq_some hl]
      intro h e he
      by_cases hh : h = normalizeHash tx.hash
      · subst hh
        rw [lookup_replaceEntry_self hl] at he
        obtain rfl := Option.some.inj he
        simp only
        rw [if_neg (by decide : ¬ (Category.requiring_signature
          = Category.initiated_by_user))]
        exact hAR _ ex hl
      · rw [lookup_replaceEntry_ne hh] at he
        exact hAR h e he

theorem phase1TxStep_preserves_target {sp : SPath} {h0 pp : String}
    {st : EligMap × SigMap} {tx : PendingTx} (hT : TargetP st.1 h0 pp) :
    TargetP (phase1TxStep sp st tx).1 h0 pp := by
  unfold phase1TxStep
  by_cases hps : priorHopSigned tx (priorHopOf sp) = true
  · rw [if_pos hps]
    exact hT
  · rw [if_neg hps]
    exact addReq_preserves_target hT

theorem phase1PathStep_preserves_target {pendingOf : String → List PendingTx}
    {h0 pp : String} {st : EligMap × SigMap} {sp : SPath}
    (hT : TargetP st.1 h0 pp) :
    TargetP (phase1PathStep pendingOf st sp).1 h0 pp := by
  unfold phase1PathStep
  by_cases hlen : sp.hops.length < 2
  · rw [if_pos hlen]
    exact hT
  · rw [if_neg hlen]
    exact foldl_pres (P := fun st : EligMap × SigMap => TargetP st.1 h0 pp)
      (fun st tx h => phase1TxStep_preserves_target h)
      (pendingOf sp.finalSigner) st hT

theorem phase1_preserves_target {pendingOf : String → List PendingTx}
    {U : List String} {h0 pp : String} :
    ∀ (qs : List SPath) (st : EligMap × SigMap), TargetP st.1 h0 pp →
      TargetP (processSigningPaths pendingOf qs U st).1 h0 pp := by
  intro qs st hT
  exact foldl_pres (P := fun st : EligMap × SigMap => TargetP st.1 h0 pp)
    (fun st sp h => phase1PathStep_preserves_target h) qs st hT

theorem phase1TxStep_allreq {sp : SPath} {st : EligMap × SigMap}
    {tx : PendingTx} (hAR : AllReq st.1) : AllReq (phase1TxStep sp st tx).1 := by
  unfold phase1TxStep
  by_cases hps : priorHopSigned tx (priorHopOf sp) = true
  · rw [if_pos hps]
    exact hAR
  · rw [if_neg hps]
    exact addReq_allreq hAR

theorem phase1PathStep_allreq {pendingOf : String → List PendingTx}
    {st : EligMap × SigMap} {sp : SPath} (hAR : AllReq st.1) :
    AllReq (phase1PathStep pendingOf st sp).1 := by
  unfold phase1PathStep
  by_cases hlen : sp.hops.length < 2
  · rw [if_pos hlen]
    exact hAR
  · rw [if_neg hlen]
    exact foldl_pres (P := fun st : EligMap × SigMap => AllReq st.1)
      (fun st tx h => phase1TxStep_allreq h)
      (pendingOf sp.finalSigner) st hAR

theorem addReq_target_self {m : EligMap} {tx : PendingTx} {p : String}
    (hAR : AllReq m) :
    TargetP (addEligibleTx m tx p Category.requiring_signature)
      (normalizeHash tx.hash) p := by
  cases hl : m.lookup (normalizeHash tx.hash) with
  | none =>
      rw [addEligibleTx_eq_none hl]
      refine ⟨⟨tx, [p], Category.requiring_signature⟩, ?_, by simp, rfl⟩
      rw [List.lookup_append, hl, Option.none_or, lookup_cons_if, if_pos rfl]
  | some ex =>
      rw [addEligibleTx_eq_some hl]
      refine ⟨_, lookup_replaceEntry_self hl, ?_, ?_⟩
      · by_cases hc : ex.eligiblePaths.contains p
        · simp only [if_pos hc]
          simpa using hc
        · simp only [if_neg hc]
          exact List.mem_append.mpr (Or.inr (by simp))
      · simp only
        rw [if_neg (by decide : ¬ (Category.requiring_signature
          = Category.initiated_by_user))]
        exact hAR _ ex hl

/-- Processing the pending list of one multi-hop path records the
target entry for every transaction whose prior hop has not signed. -/
theorem phase1TxFold_complete {sp : SPath} {tx : PendingTx} :
    ∀ (txs : List PendingTx) (st : EligMap × SigMap), AllReq st.1 →
      tx ∈ txs → priorHopSigned tx (priorHopOf sp) = false →
      TargetP (txs.foldl (phase1TxStep sp) st).1
        (normalizeHash tx.hash) sp.path := by
  intro txs
  induction txs with
  | nil => intro st _ h; simp at h
  | cons t ts ih =>
      intro st hAR hmem hps
      rcases List.mem_cons.mp hmem with rfl | hts
      · have hT : TargetP (phase1TxStep sp st tx).1
            (normalizeHash tx.hash) sp.path := by
          unfold phase1TxStep
          rw [if_neg (by rw [hps]; exact Bool.false_ne_true)]
          exact addReq_target_self hAR
        exact foldl_pres
          (P := fun st : EligMap × SigMap =>
            TargetP st.1 (normalizeHash tx.hash) sp.path)
          (fun st tx h => phase1TxStep_preserves_target h) ts _ hT
      · exact ih _ (phase1TxStep_allreq hAR) hts hps

/-- Completeness of Phase 1: for each multi-hop path and each pending
transaction of its final signer not signed by the prior hop, the final
map holds the entry with this path's rendering and category
`requiring_signature`. -/
theorem phase1_complete {pendingOf : String → List PendingTx}
    {U : List String} :
    ∀ (qs : List SPath) (st : EligMap × SigMap), AllReq st.1 →
      ∀ p ∈ qs, ¬ p.hops.length < 2 →
      ∀ tx ∈ pendingOf p.finalSigner,
        priorHopSigned tx (priorHopOf p) = false →
        TargetP (processSigningPaths pendingOf qs U st).1
          (normalizeHash tx.hash) p.path := by
  intro qs
  induction qs with
  | nil => intro st _ p hp; simp at hp
  | cons q qs ih =>
      intro st hAR p hp hlen tx htx hps
      have hcons : processSigningPaths pendingOf (q :: qs) U st
          = processSigningPaths pendingOf qs U
              (phase1PathStep pendingOf st q) := rfl
      rw [hcons]
      rcases List.mem_cons.mp hp with rfl | hpqs
      · have hT : TargetP (phase1PathStep pendingOf st p).1
            (normalizeHash tx.hash) p.path := by
          unfold phase1PathStep
          rw [if_neg hlen]
          exact phase1TxFold_complete _ st hAR htx hps
        exact phase1_preserves_target qs _ hT
      · exact ih _ (phase1PathStep_allreq hAR) p hpqs hlen tx htx hps

theorem addEligibleTx_lookup_cases {m : EligMap} {tx : PendingTx}
    {p : String} {c : Category} {h : String} {e : EligibleTx}
    (hle : (addEligibleTx m tx p c).lookup h = some e) :
    (∃ e0, m.lookup h = some e0) ∨ h = normalizeHash tx.hash := by
  cases hl : m.lookup (normalizeHash tx.hash) with
  | none =>
      rw [addEligibleTx_eq_none hl, List.lookup_append] at hle
      cases hm : m.lookup h with
      | some e0 => exact Or.inl ⟨e0, rfl⟩
      | none =>
          rw [hm, Option.none_or, lookup_cons_if] at hle
          by_cases hh : h = normalizeHash tx.hash
          · exact Or.inr hh
          · rw [if_neg hh] at hle
            simp at hle
  | some ex =>
      rw [addEligibleTx_eq_some hl] at hle
      by_cases hh : h = normalizeHash tx.hash
      · exact Or.inr hh
      · rw [lookup_replaceEntry_ne hh] at hle
        exact Or.inl ⟨e, hle⟩

/-- Soundness of Phase 1: every entry of the final map stems from some
multi-hop path of the list and some pending transaction of its final
signer whose prior hop has not signed. -/
theorem phase1_sound {pendingOf : String → List PendingTx}
    {U : List String} (paths0 : List SPath) :
    ∀ (qs : List SPath) (st : EligMap × SigMap),
      (∀ q ∈ qs, q ∈ paths0) →
      (∀ h e, st.1.lookup h = some e →
        ∃ p ∈ paths0, 2 ≤ p.hops.length ∧
          ∃ tx ∈ pendingOf p.finalSigner, normalizeHash tx.hash = h ∧
            priorHopSigned tx (priorHopOf p) = false) →
      ∀ h e, (processSigningPaths pendingOf qs U st).1.lookup h = some e →
        ∃ p ∈ paths0, 2 ≤ p.hops.length ∧
          ∃ tx ∈ pendingOf p.finalSigner, normalizeHash tx.hash = h ∧
            priorHopSigned tx (priorHopOf p) = false := by
  intro qs st hqmem hInv
  unfold processSigningPaths
  refine foldl_pres_mem
    (P := fun st : EligMap × SigMap => ∀ h e, st.1.lookup h = some e →
      ∃ p ∈ paths0, 2 ≤ p.hops.length ∧
        ∃ tx ∈ pendingOf p.finalSigner, normalizeHash tx.hash = h ∧
          priorHopSigned tx (priorHopOf p) = false)
    qs ?_ st hInv
  intro st q hq hInv
  unfold phase1PathStep
  by_cases hlen : q.hops.length < 2
  · rw [if_pos hlen]
    exact hInv
  · rw [if_neg hlen]
    refine foldl_pres_mem
      (P := fun st : EligMap × SigMap => ∀ h e, st.1.lookup h = some e →
        ∃ p ∈ paths0, 2 ≤ p.hops.length ∧
          ∃ tx ∈ pendingOf p.finalSigner, normalizeHash tx.hash = h ∧
            priorHopSigned tx (priorHopOf p) = false)
      (pendingOf q.finalSigner) ?_ st hInv
    intro st tx htx hInv h e hle
    unfold phase1TxStep at hle
    by_cases hps : priorHopSigned tx (priorHopOf q) = true
    · rw [if_pos hps] at hle
      exact hInv h e hle
    · rw [if_neg hps] at hle
      rcases addEligibleTx_lookup_cases hle with ⟨e0, hm⟩ | rfl
      · exact hInv h e0 hm
      · exact ⟨q, hqmem q hq, by omega, tx, htx, rfl,
          by simpa using hps⟩

/-- Dropping short paths from the input list leaves Phase 1's result
unchanged. -/
theorem phase1_skip {pendingOf : String → List PendingTx}
    {U : List String} :
    ∀ (qs : List SPath) (st : EligMap × SigMap),
      processSigningPaths pendingOf qs U st
        = processSigningPaths pendingOf
            (qs.filter (fun sp => !(sp.hops.length < 2))) U st := by
  intro qs
  induction qs with
  | nil => intro st; rfl
  | cons q qs ih =>
      intro st
      by_cases hlen : q.hops.length < 2
      · have hfil : (q :: qs).filter (fun sp => !(sp.hops.length < 2))
            = qs.filter (fun sp => !(sp.hops.length < 2)) := by
          rw [List.filter_cons]
          rw [if_neg (by simp [hlen])]
        rw [hfil]
        have hcons : processSigningPaths pendingOf (q :: qs) U st
            = processSigningPaths pendingOf qs U
                (phase1PathStep pendingOf st q) := rfl
        rw [hcons]
        have hid : phase1PathStep pendingOf st q = st := by
          unfold phase1PathStep
          rw [if_pos hlen]
        rw [hid]
        exact ih st
      · have hfil : (q :: qs).filter (fun sp => !(sp.hops.length < 2))
            = q :: qs.filter (fun sp => !(sp.hops.length < 2)) := by
          rw [List.filter_cons]
          rw [if_pos (by simp [hlen])]
        rw [hfil]
        have hcons : processSigningPaths pendingOf (q :: qs) U st
            = processSigningPaths pendingOf qs U
                (phase1PathStep pendingOf st q) := rfl
        rw [hcons]
        exact ih _

/-- Claim C1: in Phase 1 of discovery, (a) the user's key-hash set
plays no role; (b) single-hop paths are skipped (filtering them out
changes nothing); (c) for every multi-hop path and every pending
transaction of its final signer, if no signature's normalized signer
equals the normalized second-to-last hop, the transaction is in the
eligible map with that path's rendering and category
`requiring_signature`; (d) conversely every entry of the map stems
from such an unsigned (path, transaction) pair. -/
theorem claim_C1 :
    ∀ (pendingOf : String → List PendingTx) (signingPaths : List SPath)
      (U1 U2 : List String),
      (processSigningPaths pendingOf signingPaths U1 ([], [])
        = processSigningPaths pendingOf signingPaths U2 ([], [])) ∧
      (processSigningPaths pendingOf signingPaths U1 ([], [])
        = processSigningPaths pendingOf
            (signingPaths.filter (fun sp => !(sp.hops.length < 2)))
            U1 ([], [])) ∧
      (∀ p ∈ signingPaths, 2 ≤ p.hops.length →
        ∀ tx ∈ pendingOf p.finalSigner,
          priorHopSigned tx (priorHopOf p) = false →
          ∃ e, (processSigningPaths pendingOf signingPaths U1
              ([], [])).1.lookup (normalizeHash tx.hash) = some e ∧
            p.path ∈ e.eligiblePaths ∧
            e.category = Category.requiring_signature) ∧
      (∀ h e, (processSigningPaths pendingOf signingPaths U1
          ([], [])).1.lookup h = some e →
        ∃ p ∈ signingPaths, 2 ≤ p.hops.length ∧
          ∃ tx ∈ pendingOf p.finalSigner, normalizeHash tx.hash = h ∧
            priorHopSigned tx (priorHopOf p) = false) := by
  intro pendingOf signingPaths U1 U2
  refine ⟨rfl, phase1_skip signingPaths ([], []), ?_, ?_⟩
  · intro p hp hlen tx htx hps
    exact phase1_complete signingPaths ([], [])
      (fun h e he => by simp at he) p hp (by omega) tx htx hps
  · exact phase1_sound signingPaths signingPaths ([], [])
      (fun q hq => hq) (fun h e he => by simp at he)

/-- Claim C1 witness: the completeness part applied at a concrete
two-hop path whose final signer has one unsigned pending transaction,
and the soundness part applied at the resulting entry. -/
theorem claim_C1_witness :
    (∃ e, (processSigningPaths
        (fun u => if u = "acc://b.acme/book/1"
          then [⟨"acc://h1@x", "h1", "acc://x", [], none⟩] else [])
        [⟨"acc://a.acme/book/1 -> acc://b.acme/book/1",
          ["acc://a.acme/book/1", "acc://b.acme/book/1"],
          "acc://b.acme/book/1"⟩] ["aa"] ([], [])).1.lookup
        (normalizeHash "h1") = some e ∧
      "acc://a.acme/book/1 -> acc://b.acme/book/1" ∈ e.eligiblePaths ∧
      e.category = Category.requiring_signature) :=
  (claim_C1 (fun u => if u = "acc://b.acme/book/1"
      then [⟨"acc://h1@x", "h1", "acc://x", [], none⟩] else [])
    [⟨"acc://a.acme/book/1 -> acc://b.acme/book/1",
      ["acc://a.acme/book/1", "acc://b.acme/book/1"],
      "acc://b.acme/book/1"⟩] ["aa"] ["bb"]).2.2.1
    ⟨"acc://a.acme/book/1 -> acc://b.acme/book/1",
      ["acc://a.acme/book/1", "acc://b.acme/book/1"],
      "acc://b.acme/book/1"⟩ (by simp) (by decide)
    ⟨"acc://h1@x", "h1", "acc://x", [], none⟩ (by simp) (by decide)

/-! ### C3 lemmas -/

theorem lookup_some_mem {β : Type} {l : List (String × β)} {k : String}
    {v : β} (h : l.lookup k = some v) : (k, v) ∈ l := by
  induction l with
  | nil => simp [List.lookup] at h
  | cons kv t ih =>
      obtain ⟨k0, v0⟩ := kv
      rw [lookup_cons_if] at h
      by_cases hk : k = k0
      · rw [if_pos hk] at h
        injection h with h
        subst hk
        subst h
        exact List.mem_cons_self _ _
      · rw [if_neg hk] at h
        exact List.mem_cons_of_mem _ (ih h)

theorem lookup_storeDelete (s : List (String × PendingActionDocument))
    (d id : String) :
    (storeDelete s d).lookup id = if id = d then none else s.lookup id := by
  induction s with
  | nil => by_cases h : id = d <;> simp [storeDelete, h]
  | cons kv t ih =>
      obtain ⟨k0, v0⟩ := kv
      by_cases hkd : k0 = d
      · have hstep : storeDelete ((k0, v0) :: t) d = storeDelete t d := by
          simp [storeDelete, List.filter, hkd]
        rw [hstep, ih]
        by_cases hid : id = d
        · rw [if_pos hid, if_pos hid]
        · rw [if_neg hid, if_neg hid, lookup_cons_if,
            if_neg (fun hx => hid (hx.trans hkd))]
      · have hne : (k0 != d) = true := by simp [hkd]
        have hstep : storeDelete ((k0, v0) :: t) d
            = (k0, v0) :: storeDelete t d := by
          simp [storeDelete, List.filter, hne]
        rw [hstep, lookup_cons_if, ih, lookup_cons_if]
        by_cases hik : id = k0
        · rw [if_pos hik, if_neg (fun hx => hkd (hik.symm.trans hx)), if_pos hik]
        · rw [if_neg hik, if_neg hik]

theorem lookup_foldl_storeDelete (rms : List String) :
    ∀ (s : List (String × PendingActionDocument)) (id : String),
    (rms.foldl storeDelete s).lookup id =
      if id ∈ rms then none else s.lookup id := by
  induction rms with
  | nil => intro s id; simp
  | cons r rs ih =>
      intro s id
      rw [List.foldl_cons, ih, lookup_storeDelete]
      by_cases h1 : id ∈ rs
      · rw [if_pos h1, if_pos (List.mem_cons_of_mem _ h1)]
      · rw [if_neg h1]
        by_cases h2 : id = r
        · rw [if_pos h2, if_pos (h2 ▸ List.mem_cons_self _ _)]
        · rw [if_neg h2, if_neg (fun hx => by
            rcases List.mem_cons.mp hx with h | h
            · exact h2 h
            · exact h1 h)]

theorem lookup_storeSet_self (s : List (String × PendingActionDocument))
    (k : String) (doc : PendingActionDocument) :
    (storeSet s k doc).lookup k = some doc := by
  unfold storeSet
  cases h : s.lookup k with
  | none =>
      rw [List.lookup_append, h, Option.none_or, lookup_cons_if, if_pos rfl]
  | some ex => exact lookup_replaceEntry_self h

theorem lookup_storeSet_ne (s : List (String × PendingActionDocument))
    (k id : String) (doc : PendingActionDocument) (hne : id ≠ k) :
    (storeSet s k doc).lookup id = s.lookup id := by
  unfold storeSet
  cases h : s.lookup k with
  | none =>
      rw [List.lookup_append, lookup_cons_if, if_neg hne]
      cases s.lookup id <;> rfl
  | some ex => exact lookup_replaceEntry_ne hne

theorem isSome_foldl_storeSet (adds : List PendingActionDocument) :
    ∀ (s : List (String × PendingActionDocument)) (id : String),
    ((adds.foldl (fun s a => storeSet s a.id a) s).lookup id).isSome ↔
      (s.lookup id).isSome ∨ id ∈ adds.map (fun a => a.id) := by
  induction adds with
  | nil => intro s id; simp
  | cons a as ih =>
      intro s id
      rw [List.foldl_cons, ih, List.map_cons]
      by_cases h : id = a.id
      · subst h
        rw [lookup_storeSet_self]
        simp
      · rw [lookup_storeSet_ne _ _ _ _ h]
        constructor
        · rintro (h1 | h2)
          · exact Or.inl h1
          · exact Or.inr (List.mem_cons_of_mem _ h2)
        · rintro (h1 | h2)
          · exact Or.inl h1
          · rcases List.mem_cons.mp h2 with h3 | h3
            · exact absurd h3 h
            · exact Or.inr h3

theorem mem_insertUniq (l : List String) (x y : String) :
    y ∈ insertUniq l x ↔ y ∈ l ∨ y = x := by
  unfold insertUniq
  by_cases h : l.contains x
  · rw [if_pos h]
    constructor
    · exact Or.inl
    · rintro (h1 | rfl)
      · exact h1
      · exact List.mem_of_elem_eq_true h
  · rw [if_neg h]
    simp [List.mem_append]

theorem mem_foldl_insertUniq (xs : List String) :
    ∀ (acc : List String) (y : String),
      y ∈ xs.foldl insertUniq acc ↔ y ∈ acc ∨ y ∈ xs := by
  induction xs with
  | nil => intro acc y; simp
  | cons x t ih =>
      intro acc y
      rw [List.foldl_cons, ih, mem_insertUniq, List.mem_cons]
      tauto

theorem map_id_reconcileToAdd (now : Nat) (discovery : DiscoveryResult) :
    (reconcileToAdd now discovery).map (fun a => a.id) =
      discovery.eligibleTransactions.map (fun t => normalizeHash t.tx.hash) := by
  rw [reconcileToAdd, List.map_map]
  rfl

theorem lookup_updatePendingActions (store : UserStore)
    (toAdd : List PendingActionDocument) (toRemove : List String)
    (cs : ComputedPendingState) (id : String) :
    (((updatePendingActions store toAdd toRemove cs).pendingActions.lookup
        id)).isSome ↔
      (id ∉ toRemove ∧ (store.pendingActions.lookup id).isSome) ∨
        id ∈ toAdd.map (fun a => a.id) := by
  unfold updatePendingActions
  rw [isSome_foldl_storeSet, lookup_foldl_storeDelete]
  by_cases h : id ∈ toRemove
  · rw [if_pos h]
    simp [h]
  · rw [if_neg h]
    simp [h]

/-- C3: after a non-dry-run `updateUserPendingState` (whose batch commit
the store model applies as one atomic step), the set of document IDs in
the user's `pendingActions` subcollection equals the set of normalized
hashes of the discovery result's eligible transactions, for every prior
contents of the subcollection (whose documents carry their key in their
`id` field, as every document this service writes does) and every
discovery result. -/
theorem claim_C3 (cycleToken : String) (now wallNow : Nat)
    (previousCycleToken : Option String) (store : UserStore)
    (discovery : DiscoveryResult)
    (hwf : ∀ kv ∈ store.pendingActions, kv.2.id = kv.1) (id : String) :
    ((updateUserPendingState cycleToken now wallNow false previousCycleToken
        store discovery).1.pendingActions.lookup id).isSome ↔
      id ∈ discovery.eligibleTransactions.map
        (fun t => normalizeHash t.tx.hash) := by
  have hfst : (updateUserPendingState cycleToken now wallNow false
      previousCycleToken store discovery).1 =
      updatePendingActions store (reconcileToAdd now discovery)
        (reconcileToRemove store (newHashesOf discovery))
        (reconcileComputedState cycleToken now wallNow discovery) := rfl
  rw [hfst, lookup_updatePendingActions, map_id_reconcileToAdd]
  constructor
  · rintro (⟨hnr, hsome⟩ | hmem)
    · by_cases hN : id ∈ discovery.eligibleTransactions.map
          (fun t => normalizeHash t.tx.hash)
      · exact hN
      · exfalso
        obtain ⟨doc, hdoc⟩ := Option.isSome_iff_exists.mp hsome
        have hpair := lookup_some_mem hdoc
        have hid : doc.id = id := hwf _ hpair
        apply hnr
        unfold reconcileToRemove
        refine List.mem_map.mpr ⟨doc, List.mem_filter.mpr ⟨?_, ?_⟩, hid⟩
        · exact List.mem_map.mpr ⟨(id, doc), hpair, rfl⟩
        · have hnm : doc.id ∉ newHashesOf discovery := by
            rw [hid]
            intro hin
            rcases (mem_foldl_insertUniq _ _ _).mp hin with h | h
            · exact absurd h (List.not_mem_nil _)
            · exact hN h
          cases hc : (newHashesOf discovery).contains doc.id with
          | false => rfl
          | true => exact absurd (List.mem_of_elem_eq_true hc) hnm
    · exact hmem
  · intro h
    exact Or.inr h

theorem claim_C3_witness :
    ((updateUserPendingState "tok" 0 0 false none
        ⟨[("h2", buildPendingActionDocument 0
            ⟨⟨"t2", "h2", "acc://x", [], none⟩, [],
              Category.requiring_signature⟩ [])], none⟩
        ⟨[⟨⟨"t1", "h1", "acc://x", [], none⟩, [],
            Category.requiring_signature⟩], 1, []⟩).1.pendingActions.lookup
        "h1").isSome ↔
      "h1" ∈ (⟨[⟨⟨"t1", "h1", "acc://x", [], none⟩, [],
          Category.requiring_signature⟩], 1, []⟩ :
          DiscoveryResult).eligibleTransactions.map
        (fun t => normalizeHash t.tx.hash) :=
  claim_C3 "tok" 0 0 none
    ⟨[("h2", buildPendingActionDocument 0
        ⟨⟨"t2", "h2", "acc://x", [], none⟩, [],
          Category.requiring_signature⟩ [])], none⟩
    ⟨[⟨⟨"t1", "h1", "acc://x", [], none⟩, [],
        Category.requiring_signature⟩], 1, []⟩
    (by decide) "h1"

/-- C5: the claimed guard does not exist.  With every ledger RPC of the
user's cycle failing (the `failedLedger` oracle, whose values are
exactly the client methods' own catch-branch results), `processUser`
does not skip reconciliation: it commits the empty discovery result,
deleting every prior inbox document, and counts the user as processed —
`failedUsers` stays zero. -/
theorem claim_C5 :
    (processUser failedLedger 5 "tok" 0 0 false c5User c5Store
        createPollStats).1.pendingActions = [] ∧
    (processUser failedLedger 5 "tok" 0 0 false c5User c5Store
        createPollStats).2.failedUsers = 0 ∧
    (processUser failedLedger 5 "tok" 0 0 false c5User c5Store
        createPollStats).2.processedUsers = 1 ∧
    c5Store.pendingActions ≠ [] := by
  refine ⟨by decide, by decide, by decide, by decide⟩

end CertenPending

